import Mathlib

/-!
Shallow embedding of the flat-file-to-normalized-schema loading pipeline of
the `sales_ai_app` repository, covering the two implementations of that
pipeline:

* `mini_project2.py` (`step1_create_region_table` … `step11_create_orderdetail_table`),
  which loads a SQLite database, and
* `populate_db.py` (`parse_regions` … `main`), which loads a PostgreSQL database.

Modelling conventions:

* A string is a `List Char` (`Str` below); a file is a `List Str` of its lines,
  each line carrying its trailing newline character exactly as Python's file
  iteration yields it.  The first line is the header, skipped by both programs.
* Python's `str.split(sep)` / `str.strip()` / `str.rstrip("\n")` / `str.split()`
  (whitespace split) / `" ".join` are embedded character-exactly below.
* Python `set` values are modelled canonically: the set of a list is its
  `dedup`, enumerated in ascending order of a full linear order on the element
  tuples (`canonSet`).  `sorted(s, key=k)` is a stable merge sort by `k` over
  that enumeration (CPython's `sorted` is a stable merge sort; its input order
  for a `set` argument is the set's iteration order, which CPython leaves
  unspecified — `pgCategoriesOfEnum` below keeps that enumeration explicit
  where a claim depends on it).
* Python `float` values are modelled exactly: a decimal/scientific token is
  parsed to the canonical pair `(n, k)` representing `n / 10^k` with `10 ∤ n`
  (so `1.5`, `1.50` and `15e-1` all yield `(15, 1)`): equality of these pairs
  is numeric equality of the token values.  The claims checked here depend
  only on parse success and value equality, never on binary rounding.
* `datetime.strptime(s, "%Y%m%d")` is modelled on 8-digit tokens (exactly
  8 digits, calendar-validated); every token exercised by a claim is either a
  valid 8-digit date or contains a non-digit.
* SQLite surrogate keys (`INTEGER PRIMARY KEY`) and PostgreSQL `SERIAL` keys
  are the 1-based insertion positions of the rows.
* The SQLite steps of `mini_project2.py` contain unguarded `l.strip().split('\t')[i]`
  indexing, unguarded `float` / `int` / `strptime` calls and an unguarded
  `nm[0]`; any of these can raise, aborting the run.  Those steps are therefore
  embedded as `Option`-returning functions, `none` meaning an uncaught Python
  exception.  The PostgreSQL functions guard everything and are total.
-/

/-- Characters, as Python sees the file content. -/
abbrev Str := List Char

/-- Python's notion of whitespace for `str.strip()` / `str.split()`
(ASCII part; the source data is ASCII). -/
def isPyWs (c : Char) : Bool :=
  c = ' ' || c = '\t' || c = '\n' || c = '\r' || c = '\x0b' || c = '\x0c'

/-- Split a string at every character satisfying `p`, keeping empty pieces —
the common core of Python's `str.split(sep)` for a one-character separator. -/
def splitOnPred (p : Char → Bool) : Str → List Str
  | [] => [[]]
  | c :: rest =>
    if p c then [] :: splitOnPred p rest
    else
      match splitOnPred p rest with
      | [] => [[c]]
      | s :: ss => (c :: s) :: ss

/-- Python `s.split('\t')`. -/
def splitTab (s : Str) : List Str := splitOnPred (· = '\t') s

/-- Python `s.split(';')`. -/
def splitSemi (s : Str) : List Str := splitOnPred (· = ';') s

/-- Python `s.strip()`. -/
def trimStr (s : Str) : Str :=
  ((s.dropWhile isPyWs).reverse.dropWhile isPyWs).reverse

/-- Python `s.rstrip("\n")`. -/
def rstripNl (s : Str) : Str := (s.reverse.dropWhile (· = '\n')).reverse

/-- Python `s.split()` — split on whitespace runs, discarding empty pieces. -/
def splitWs (s : Str) : List Str := (splitOnPred isPyWs s).filter (· ≠ [])

/-- Python `' '.join(xs)`. -/
def joinSpace (xs : List Str) : Str := (xs.intersperse [' ']).flatten

/-- The value of a digit string. -/
def digitsToNat (s : Str) : Nat := s.foldl (fun n c => 10 * n + (c.toNat - '0'.toNat)) 0

/-- Python `int(s)`: strips whitespace, then an optional sign and a nonempty
digit string. -/
def parseIntPy (s : Str) : Option Int :=
  let t := trimStr s
  match t with
  | '+' :: ds => if ds ≠ [] ∧ ds.all Char.isDigit then some (digitsToNat ds) else none
  | '-' :: ds => if ds ≠ [] ∧ ds.all Char.isDigit then some (-(digitsToNat ds : Int)) else none
  | ds => if ds ≠ [] ∧ ds.all Char.isDigit then some (digitsToNat ds) else none

/-- An exact Python float value: the pair `(n, k)` denotes `n / 10^k`,
kept canonical (`10 ∤ n`, and `(0, 0)` for zero) by `reduceFloat`. -/
abbrev PyFloat := Int × Nat

/-- Canonicalize `n / 10^k` by cancelling factors of ten. -/
def reduceFloat (n : Int) : Nat → PyFloat
  | 0 => (n, 0)
  | k + 1 => if n % 10 = 0 then reduceFloat (n / 10) k else (n, k + 1)

/-- The mantissa part of a Python float literal: `123`, `123.45`, `.45`,
`123.` — returned as `(digits value, number of fractional digits)`. -/
def parseDecimalBody (t : Str) : Option (Int × Nat) :=
  let ip := t.takeWhile Char.isDigit
  let rest := t.dropWhile Char.isDigit
  match rest with
  | [] => if ip ≠ [] then some ((digitsToNat ip : Int), 0) else none
  | '.' :: fp =>
    if fp.all Char.isDigit ∧ (ip ≠ [] ∨ fp ≠ []) then
      some ((10 : Int) ^ fp.length * (digitsToNat ip : Int) + (digitsToNat fp : Int), fp.length)
    else none
  | _ => none

/-- An optionally signed nonempty digit string (for float exponents). -/
def parseSignedNat (t : Str) : Option Int :=
  match t with
  | '+' :: ds => if ds ≠ [] ∧ ds.all Char.isDigit then some (digitsToNat ds) else none
  | '-' :: ds => if ds ≠ [] ∧ ds.all Char.isDigit then some (-(digitsToNat ds : Int)) else none
  | ds => if ds ≠ [] ∧ ds.all Char.isDigit then some (digitsToNat ds) else none

/-- Python `float(s)` on finite decimal/scientific literals, as an exact
canonical decimal.  (`inf` / `nan` / underscore forms are outside the model;
no claim exercises them.) -/
def parseFloatPy (s : Str) : Option PyFloat :=
  let t := trimStr s
  let signed : Str × Int :=
    match t with
    | '+' :: r => (r, 1)
    | '-' :: r => (r, -1)
    | r => (r, 1)
  let body := signed.1
  let sign := signed.2
  match splitOnPred (fun c => c = 'e' || c = 'E') body with
  | [m] => (parseDecimalBody m).map fun v => reduceFloat (sign * v.1) v.2
  | [m, ex] =>
    match parseDecimalBody m, parseSignedNat ex with
    | some v, some e =>
      some (if 0 ≤ e then reduceFloat (sign * v.1 * (10 : Int) ^ e.toNat) v.2
        else reduceFloat (sign * v.1) (v.2 + (-e).toNat))
    | _, _ => none
  | _ => none

/-- Days in a month of the proleptic Gregorian calendar. -/
def daysInMonth (y m : Nat) : Nat :=
  if m = 2 then
    if y % 4 = 0 ∧ (y % 100 ≠ 0 ∨ y % 400 = 0) then 29 else 28
  else if m = 4 ∨ m = 6 ∨ m = 9 ∨ m = 11 then 30
  else 31

/-- A calendar date. -/
abbrev Date := Nat × Nat × Nat

/-- `datetime.strptime(s, "%Y%m%d")`, modelled on 8-digit tokens: exactly
eight digits, month and day calendar-validated. -/
def parseDatePy (s : Str) : Option Date :=
  if s.length = 8 ∧ s.all Char.isDigit then
    let y := digitsToNat (s.take 4)
    let m := digitsToNat ((s.drop 4).take 2)
    let d := digitsToNat (s.drop 6)
    if 1 ≤ m ∧ m ≤ 12 ∧ 1 ≤ d ∧ d ≤ daysInMonth y m then some (y, m, d) else none
  else none

/-- Two-digit zero-padded decimal rendering (for `strftime`). -/
def pad2 (n : Nat) : Str := if n < 10 then ['0', Char.ofNat ('0'.toNat + n)] else (Nat.toDigits 10 n)

/-- Four-digit zero-padded decimal rendering (for `strftime`). -/
def pad4 (n : Nat) : Str :=
  let ds := Nat.toDigits 10 n
  List.replicate (4 - ds.length) '0' ++ ds

/-- `date.strftime('%Y-%m-%d')` as executed in `step11_create_orderdetail_table`. -/
def formatDateIso (d : Date) : Str := pad4 d.1 ++ '-' :: pad2 d.2.1 ++ '-' :: pad2 d.2.2

/-- Three-way comparison induced by a linear order. -/
def lcmp {α} [LinearOrder α] (a b : α) : Ordering :=
  if a < b then .lt else if b < a then .gt else .eq

/-- Lexicographic comparison of pairs. -/
def pcmp {α β} (ca : α → α → Ordering) (cb : β → β → Ordering) (x y : α × β) : Ordering :=
  (ca x.1 y.1).then (cb x.2 y.2)

/-- The boolean `≤` of a comparison function, as `mergeSort` consumes it. -/
def bleOf {α} (c : α → α → Ordering) (a b : α) : Bool := c a b ≠ .gt

/-- Python `sorted(xs, key=...)`: a stable sort by the key order (CPython's
`sorted` is stable; a stable insertion sort has the same input/output
behaviour and is kernel-reducible). -/
def pySorted {α} (le : α → α → Bool) (xs : List α) : List α :=
  List.insertionSort (fun a b => le a b = true) xs

/-- Canonical enumeration of Python `set(xs)`: the distinct elements in
ascending order of a full linear order on the tuples. -/
def canonSet {α} [DecidableEq α] (le : α → α → Bool) (xs : List α) : List α :=
  List.insertionSort (fun a b => le a b = true) xs.dedup

/-- 0-based index of the last occurrence of `a` in `xs` — the behaviour of a
Python dict comprehension `{key(row): id(row) for row in rows}` where a later
row overwrites an earlier one with the same key. -/
def lastIdx {α} [DecidableEq α] : List α → α → Option Nat
  | [], _ => none
  | x :: xs, a =>
    match lastIdx xs a with
    | some i => some (i + 1)
    | none => if x = a then some 0 else none

/-- The name→surrogate-id dictionary read back from a table whose rows were
inserted at 1-based positions: `{name: id}`, later rows winning. -/
def tableMap {α} [DecidableEq α] (keys : List α) (a : α) : Option Nat :=
  (lastIdx keys a).map (· + 1)

/-- Python `zip(a, b, c)`. -/
def zip3 {α β γ} (a : List α) (b : List β) (c : List γ) : List (α × β × γ) :=
  ((a.zip b).zip c).map fun p => (p.1.1, p.1.2, p.2)

/-- Run an `Option`-valued per-line extractor over all lines, concatenating the
results; `none` (an uncaught Python exception on some line) aborts the whole
comprehension. -/
def gatherLines {α β} (f : α → Option (List β)) : List α → Option (List β)
  | [] => some []
  | a :: as =>
    match f a, gatherLines f as with
    | some xs, some ys => some (xs ++ ys)
    | _, _ => none

/-- The data lines of a file: everything after the header line
(`next(f)` in both programs). -/
def dataLines (f : List Str) : List Str := f.drop 1

/-- Boolean `≤` of a linear order, as fed to `mergeSort`. -/
def lleB {α} [LinearOrder α] (a b : α) : Bool := bleOf lcmp a b

/-- Full lexicographic comparison of pairs of linearly ordered components. -/
def cmp2 {α β} [LinearOrder α] [LinearOrder β] : α × β → α × β → Ordering :=
  pcmp lcmp lcmp

/-- Full lexicographic comparison of triples. -/
def cmp3 {α β γ} [LinearOrder α] [LinearOrder β] [LinearOrder γ] :
    α × β × γ → α × β × γ → Ordering :=
  pcmp lcmp (pcmp lcmp lcmp)

/-- Full lexicographic comparison of 5-tuples. -/
def cmp5 {α β γ δ ε} [LinearOrder α] [LinearOrder β] [LinearOrder γ] [LinearOrder δ]
    [LinearOrder ε] : α × β × γ × δ × ε → α × β × γ × δ × ε → Ordering :=
  pcmp lcmp (pcmp lcmp (pcmp lcmp (pcmp lcmp lcmp)))

/-- Boolean `≤` for pairs (full tuple order). -/
def le2 {α β} [LinearOrder α] [LinearOrder β] : α × β → α × β → Bool := bleOf cmp2

/-- Boolean `≤` for triples (full tuple order). -/
def le3 {α β γ} [LinearOrder α] [LinearOrder β] [LinearOrder γ] : α × β × γ → α × β × γ → Bool :=
  bleOf cmp3

/-- Full comparison of the `(productname, category, unitprice)` triples of
`parse_products`. -/
def cmpProdTriple : Str × Str × PyFloat → Str × Str × PyFloat → Ordering :=
  pcmp lcmp (pcmp lcmp (pcmp lcmp lcmp))

/-- Boolean `≤` for product triples (full tuple order). -/
def leProdTriple : Str × Str × PyFloat → Str × Str × PyFloat → Bool := bleOf cmpProdTriple

/-- Full comparison of `(productname, unitprice, categoryid)` Product rows. -/
def cmpProdRow : Str × PyFloat × Nat → Str × PyFloat × Nat → Ordering :=
  pcmp lcmp (pcmp (pcmp lcmp lcmp) lcmp)

/-- Boolean `≤` for Product rows (full tuple order). -/
def leProdRow : Str × PyFloat × Nat → Str × PyFloat × Nat → Bool := bleOf cmpProdRow

/-- Boolean `≤` for 5-tuples (full tuple order). -/
def le5 {α β γ δ ε} [LinearOrder α] [LinearOrder β] [LinearOrder γ] [LinearOrder δ]
    [LinearOrder ε] : α × β × γ × δ × ε → α × β × γ × δ × ε → Bool :=
  bleOf cmp5

/-- Python `sorted(..., key=lambda x: x[0])` — compare first components only. -/
def leFst {α β} [LinearOrder α] (x y : α × β) : Bool := bleOf lcmp x.1 y.1

/-- The sort key of the Customer stage in both programs:
`key=lambda x: x[0] + " " + x[1]`. -/
def custKey {β} (x : Str × Str × β) : Str := x.1 ++ ' ' :: x.2.1

/-- Python `sorted(customers, key=lambda x: x[0] + " " + x[1])`. -/
def leCustKey {β} (x y : Str × Str × β) : Bool := bleOf lcmp (custKey x) (custKey y)

/-! ## The PostgreSQL pipeline (`populate_db.py`) -/

/-- `line.rstrip("\n").split("\t")` — the field list every `parse_*` function
of `populate_db.py` builds. -/
def pgLineParts (l : Str) : List Str := splitTab (rstripNl l)

/-- The region names `parse_regions` collects, in file order with duplicates
(before `set`/`sorted`). -/
def pgRegionRaw (f : List Str) : List Str :=
  (dataLines f).filterMap fun l =>
    if 4 < (pgLineParts l).length ∧ trimStr ((pgLineParts l).getD 4 []) ≠ [] then
      some (trimStr ((pgLineParts l).getD 4 []))
    else none

/-- `parse_regions(path)`: `sorted(regions)` — the Region table contents. -/
def pgRegionTable (f : List Str) : List Str := canonSet lleB (pgRegionRaw f)

/-- `region_map = {region: regionid}` read back from the region table. -/
def pgRegionMap (f : List Str) : Str → Option Nat := tableMap (pgRegionTable f)

/-- The `(country, region)` pairs `parse_countries` collects, in file order
with duplicates. -/
def pgCountryRaw (f : List Str) : List (Str × Str) :=
  (dataLines f).filterMap fun l =>
    if 4 < (pgLineParts l).length then
      if trimStr ((pgLineParts l).getD 3 []) ≠ [] ∧ trimStr ((pgLineParts l).getD 4 []) ≠ [] then
        some (trimStr ((pgLineParts l).getD 3 []), trimStr ((pgLineParts l).getD 4 []))
      else none
    else none

/-- `parse_countries(path)`: `sorted(pairs, key=lambda x: x[0])`. -/
def pgCountryPairs (f : List Str) : List (Str × Str) :=
  pySorted leFst (canonSet le2 (pgCountryRaw f))

/-- `country_rows = [(country, region_map[region]) for ... if region in region_map]`
— the Country table contents. -/
def pgCountryTable (f : List Str) : List (Str × Nat) :=
  (pgCountryPairs f).filterMap fun p => (pgRegionMap f p.2).map fun rid => (p.1, rid)

/-- `country_map = {country: countryid}` read back from the country table. -/
def pgCountryMap (f : List Str) : Str → Option Nat :=
  tableMap ((pgCountryTable f).map (·.1))

/-- The `(category, description)` pairs `parse_productcategories` collects. -/
def pgCategoryRaw (f : List Str) : List (Str × Str) :=
  (dataLines f).flatMap fun l =>
    if 7 < (pgLineParts l).length then
      (((pgLineParts l).getD 6 [] |> splitSemi).zip
          ((pgLineParts l).getD 7 [] |> splitSemi)).filterMap fun cd =>
        if trimStr cd.1 ≠ [] then some (trimStr cd.1, trimStr cd.2) else none
    else []

/-- `sorted(cats, key=lambda x: x[0])` applied to an explicit enumeration of
the set `cats` (CPython specifies the sort — stable merge sort by the key —
but not the set's iteration order; the pipeline instantiates `enum`
canonically). -/
def pgCategoriesOfEnum (enum : List (Str × Str)) : List (Str × Str) :=
  pySorted leFst enum

/-- `parse_productcategories(path)` — the ProductCategory table contents. -/
def pgCategoryTable (f : List Str) : List (Str × Str) :=
  pgCategoriesOfEnum (canonSet le2 (pgCategoryRaw f))

/-- `cat_map = {productcategory: productcategoryid}`. -/
def pgCategoryMap (f : List Str) : Str → Option Nat :=
  tableMap ((pgCategoryTable f).map (·.1))

/-- The `(productname, category, unitprice)` triples `parse_products` collects:
positions whose trimmed name/category/price token is empty are skipped, and a
price token rejected by `float` skips that position only (`except ValueError:
continue`). -/
def pgProductRaw (f : List Str) : List (Str × Str × PyFloat) :=
  (dataLines f).flatMap fun l =>
    if 8 < (pgLineParts l).length then
      (zip3 ((pgLineParts l).getD 5 [] |> splitSemi) ((pgLineParts l).getD 6 [] |> splitSemi)
          ((pgLineParts l).getD 8 [] |> splitSemi)).filterMap fun t =>
        if trimStr t.1 ≠ [] ∧ trimStr t.2.1 ≠ [] ∧ trimStr t.2.2 ≠ [] then
          (parseFloatPy (trimStr t.2.2)).map fun v => (trimStr t.1, trimStr t.2.1, v)
        else none
    else []

/-- `parse_products(path)`: `sorted(prods, key=lambda x: x[0])`. -/
def pgProductTriples (f : List Str) : List (Str × Str × PyFloat) :=
  pySorted leFst (canonSet leProdTriple (pgProductRaw f))

/-- `product_rows = [(name, price, cat_map[cat]) for ... if cat in cat_map]`
— the Product table contents. -/
def pgProductTable (f : List Str) : List (Str × PyFloat × Nat) :=
  (pgProductTriples f).filterMap fun t =>
    (pgCategoryMap f t.2.1).map fun cid => (t.1, t.2.2, cid)

/-- `product_map = {productname: productid}`. -/
def pgProductMap (f : List Str) : Str → Option Nat :=
  tableMap ((pgProductTable f).map (·.1))

/-- `parse_customers`' name splitting: `first = name_parts[0]`,
`last = " ".join(name_parts[1:]) if len(name_parts) > 1 else ""` — callers
guarantee `name` nonempty, so the token list is nonempty. -/
def pgSplitName (name : Str) : Str × Str :=
  ((splitWs name).headD [], joinSpace (splitWs name).tail)

/-- The customer 5-tuples `parse_customers` collects (before `set`/`sorted`):
rows whose trimmed country is empty or not a valid country name, or whose
trimmed name is empty, are skipped. -/
def pgCustomerRaw (f : List Str) (valid : Str → Bool) :
    List (Str × Str × Str × Str × Str) :=
  (dataLines f).filterMap fun l =>
    if 4 < (pgLineParts l).length then
      if trimStr ((pgLineParts l).getD 3 []) = [] ∨ ¬ valid (trimStr ((pgLineParts l).getD 3 []))
      then none
      else if trimStr ((pgLineParts l).getD 0 []) = [] then none
      else some ((pgSplitName (trimStr ((pgLineParts l).getD 0 []))).1,
        (pgSplitName (trimStr ((pgLineParts l).getD 0 []))).2,
        trimStr ((pgLineParts l).getD 1 []), trimStr ((pgLineParts l).getD 2 []),
        trimStr ((pgLineParts l).getD 3 []))
    else none

/-- `parse_customers(path, valid_countries)`:
`sorted(custs, key=lambda x: (x[0] + " " + x[1]))`. -/
def pgCustomerTuples (f : List Str) (valid : Str → Bool) :
    List (Str × Str × Str × Str × Str) :=
  pySorted leCustKey (canonSet le5 (pgCustomerRaw f valid))

/-- `valid_countries = set(country_map.keys())`. -/
def pgValidCountry (f : List Str) : Str → Bool := fun c => (pgCountryMap f c).isSome

/-- `customer_rows = [(first, last, address, city, country_map[country]) ...]`
— the Customer table contents (`country` is always a key of `country_map`
because `parse_customers` filtered on `valid_countries`, so the lookup never
raises). -/
def pgCustomerTable (f : List Str) : List (Str × Str × Str × Str × Nat) :=
  (pgCustomerTuples f (pgValidCountry f)).filterMap fun t =>
    (pgCountryMap f t.2.2.2.2).map fun cid => (t.1, t.2.1, t.2.2.1, t.2.2.2.1, cid)

/-- `cust_map = {f"{first} {last}".strip(): customerid}`. -/
def pgCustomerMap (f : List Str) : Str → Option Nat :=
  tableMap ((pgCustomerTable f).map fun r => trimStr (r.1 ++ ' ' :: r.2.1))

/-- `parse_orders(path, customer_map, product_map)` with explicit lookup maps:
per qualifying line, the `(product, quantity, date)` lists are zipped
positionally (shortest list wins); a position whose product name is not in
`product_map`, whose quantity is rejected by `int`, or whose date is rejected
by `strptime` is skipped, never aborting. -/
def pgOrdersWith (f : List Str) (cm pm : Str → Option Nat) :
    List (Nat × Nat × Date × Int) :=
  (dataLines f).flatMap fun l =>
    if 10 < (pgLineParts l).length then
      match cm (trimStr (joinSpace (splitWs ((pgLineParts l).getD 0 [])))) with
      | none => []
      | some cid =>
        (zip3 (((pgLineParts l).getD 5 [] |> splitSemi).map trimStr)
            (((pgLineParts l).getD 9 [] |> splitSemi).map trimStr)
            (((pgLineParts l).getD 10 [] |> splitSemi).map trimStr)).filterMap fun t =>
          match pm t.1 with
          | none => none
          | some pid =>
            (match parseIntPy t.2.1, parseDatePy t.2.2 with
            | some qty, some d => some (cid, pid, d, qty)
            | _, _ => none)
    else []

/-- The OrderDetail table contents of the PostgreSQL pipeline. -/
def pgOrderTable (f : List Str) : List (Nat × Nat × Date × Int) :=
  pgOrdersWith f (pgCustomerMap f) (pgProductMap f)

/-! ## The SQLite pipeline (`mini_project2.py`) -/

/-- `l.strip().split('\t')` — the field list the `step*` functions index. -/
def sqParts (l : Str) : List Str := splitTab (trimStr l)

/-- `step1_create_region_table`'s insert data:
`sorted({(l.strip().split('\t')[4],) for l in f if len(l.split('\t'))>4})`.
The guard counts fields of the raw line but the indexing is on the stripped
line, whose field list can be shorter — in that case `[4]` raises `IndexError`
(`none`). -/
def sqRegionRows (f : List Str) : Option (List Str) :=
  (gatherLines (fun l =>
    if 4 < (splitTab l).length then
      match (sqParts l)[4]? with
      | some x => some [x]
      | none => none
    else some []) (dataLines f)).map (canonSet lleB)

/-- `step3_create_country_table`'s insert data, given the Region table:
`sorted({(l.strip().split('\t')[3], rmap[l.strip().split('\t')[4]]) for l in f
if len(l.split('\t'))>4 and l.strip().split('\t')[4] in rmap}, key=lambda x: x[0])`. -/
def sqCountryRows (f : List Str) (regions : List Str) : Option (List (Str × Nat)) :=
  (gatherLines (fun l =>
    if 4 < (splitTab l).length then
      match (sqParts l)[4]? with
      | none => none
      | some r4 =>
        match tableMap regions r4 with
        | some rid =>
          (match (sqParts l)[3]? with
          | none => none
          | some c => some [(c, rid)])
        | none => some []
    else some []) (dataLines f)).map fun raw => pySorted leFst (canonSet le2 raw)

/-- `step5_create_customer_table`'s insert data, given the Country table: the
guard `len(p)>4 and p[3] in cmap` is on the stripped field list, so the indexing
is safe, but `nm = p[0].split(); nm[0]` raises `IndexError` when field 0 is
empty or whitespace-only. `sorted(list(set(data)), key=lambda x: x[0]+" "+x[1])`. -/
def sqCustomerRows (f : List Str) (countries : List (Str × Nat)) :
    Option (List (Str × Str × Str × Str × Nat)) :=
  (gatherLines (fun l =>
    if 4 < (sqParts l).length ∧ (tableMap (countries.map (·.1)) ((sqParts l).getD 3 [])).isSome
    then
      match splitWs ((sqParts l).getD 0 []) with
      | [] => none
      | n0 :: rest =>
        some [(n0, joinSpace rest, (sqParts l).getD 1 [], (sqParts l).getD 2 [],
          (tableMap (countries.map (·.1)) ((sqParts l).getD 3 [])).getD 0)]
    else some []) (dataLines f)).map fun raw => pySorted leCustKey (canonSet le5 raw)

/-- `step7_create_productcategory_table`'s insert data:
`sorted({(cat, desc) for l in f if len(l.split('\t'))>7 for cat, desc in
zip(l.strip().split('\t')[6].split(';'), l.strip().split('\t')[7].split(';'))})`.
No per-field trimming, no empty-name filtering; indexing the stripped field
list can raise. -/
def sqCategoryRows (f : List Str) : Option (List (Str × Str)) :=
  (gatherLines (fun l =>
    if 7 < (splitTab l).length then
      match (sqParts l)[6]?, (sqParts l)[7]? with
      | some c6, some c7 => some ((splitSemi c6).zip (splitSemi c7))
      | _, _ => none
    else some []) (dataLines f)).map (canonSet le2)

/-- `step9_create_product_table`'s insert data, given the ProductCategory
table: positions whose category is not in `catmap` are filtered out, but a kept
position's `float(p)` has no `try`/`except` — an unparsable price raises
`ValueError` and aborts the whole run (`none`). -/
def sqProductRows (f : List Str) (cats : List (Str × Str)) :
    Option (List (Str × PyFloat × Nat)) :=
  (gatherLines (fun l =>
    if 8 < (splitTab l).length then
      match (sqParts l)[5]?, (sqParts l)[6]?, (sqParts l)[8]? with
      | some f5, some f6, some f8 =>
        gatherLines (fun t =>
          match tableMap (cats.map (·.1)) t.2.1 with
          | some cid =>
            (match parseFloatPy t.2.2 with
            | some v => some [(t.1, v, cid)]
            | none => none)
          | none => some []) (zip3 (splitSemi f5) (splitSemi f6) (splitSemi f8))
      | _, _, _ => none
    else some []) (dataLines f)).map fun raw => pySorted leFst (canonSet leProdRow raw)

/-- `step11_create_orderdetail_table`'s insert data, given the Customer and
Product tables: the customer dictionary key is `f"{FirstName} {LastName}"`
(unstripped); positions whose product is unknown are skipped, but
`datetime.datetime.strptime(dt.strip(), '%Y%m%d')` and `int(q)` are unguarded —
a bad date or quantity aborts the run.  Orders are kept in file order,
unsorted and not deduplicated. -/
def sqOrderRows (f : List Str) (customers : List (Str × Str × Str × Str × Nat))
    (products : List (Str × PyFloat × Nat)) : Option (List (Nat × Nat × Str × Int)) :=
  gatherLines (fun l =>
    if 10 < (sqParts l).length then
      match tableMap (customers.map fun r => r.1 ++ ' ' :: r.2.1)
        (joinSpace (splitWs ((sqParts l).getD 0 []))) with
      | some cid =>
        gatherLines (fun t =>
          match tableMap (products.map (·.1)) t.1 with
          | some pid =>
            (match parseDatePy (trimStr t.2.2), parseIntPy t.2.1 with
            | some d, some q => some [(cid, pid, formatDateIso d, q)]
            | _, _ => none)
          | none => some []) (zip3 (((sqParts l).getD 5 [] |> splitSemi).map trimStr)
            ((sqParts l).getD 9 [] |> splitSemi) ((sqParts l).getD 10 [] |> splitSemi))
      | none => some []
    else some []) (dataLines f)

/-- The six SQLite tables produced by a complete run of steps 1–11. -/
structure SqTables where
  region : List Str
  country : List (Str × Nat)
  productcategory : List (Str × Str)
  product : List (Str × PyFloat × Nat)
  customer : List (Str × Str × Str × Str × Nat)
  orderdetail : List (Nat × Nat × Str × Int)
deriving DecidableEq

/-- A complete SQLite run: steps 1, 3, 5, 7, 9, 11 in order, each reading the
lookup dictionaries back from the tables the earlier steps inserted; `none`
when any step raises an uncaught exception. -/
def sqRun (f : List Str) : Option SqTables := do
  let region ← sqRegionRows f
  let country ← sqCountryRows f region
  let customer ← sqCustomerRows f country
  let productcategory ← sqCategoryRows f
  let product ← sqProductRows f productcategory
  let orderdetail ← sqOrderRows f customer product
  pure ⟨region, country, productcategory, product, customer, orderdetail⟩

/-- The character list of a string literal (for concrete test files). -/
def chars (s : String) : Str := s.data

/-- A data line is *clean* when stripping the whole line only removes the
trailing newline (no outer whitespace otherwise) and every tab-field is
already trimmed and nonempty.  On clean lines the two programs see identical
field lists. -/
def cleanLine (l : Str) : Prop :=
  splitTab (trimStr l) = splitTab (rstripNl l) ∧
    ∀ x ∈ splitTab (rstripNl l), trimStr x = x ∧ x ≠ []

/-- Lawfulness of a three-way comparison: it decides equality, it is
antisymmetric under `swap`, and its `≤` is transitive. -/
def CmpLawful {α} (c : α → α → Ordering) : Prop :=
  (∀ a b, c a b = .eq ↔ a = b) ∧ (∀ a b, c a b = (c b a).swap) ∧
  (∀ a b d, bleOf c a b = true → bleOf c b d = true → bleOf c a d = true)


/-- Decidability of `cleanLine` (all conjuncts are decidable equalities and
bounded quantifiers). -/
instance : DecidablePred cleanLine := fun l => by
  unfold cleanLine
  infer_instance

/-! ### Concrete test files

Each `file*` value is a complete input file (header line plus data lines),
written exactly as Python's file iteration would yield it. -/

/-- A file whose one row has price list `"1.50;N/A"`: the second Product
position carries an unparsable price. -/
def fileC1 : List Str :=
  [chars "h\n",
   chars "Ana Cruz\taddr\tcity\tFrance\tEurope\tCola;Fanta\tBev;Bev\tD;D\t1.50;N/A\n"]

/-- A file whose one row has quantity list `"3;x"`: the second OrderDetail
position carries a non-integer quantity. -/
def fileC1o : List Str :=
  [chars "h\n",
   chars "Ana Cruz\taddr\tcity\tFrance\tEurope\tCola;Fanta\tBev;Bev\tD;D\t1.50;2.0\t3;x\t20230101;20230102\n"]

/-- Two rows declaring the same country name under two different regions. -/
def fileC2 : List Str :=
  [chars "h\n",
   chars "X\tA1\tC1\tFrance\tEurope\n",
   chars "Y\tA2\tC2\tFrance\tAsia\n"]

/-- The alignment scenario of the spec: product list `"A;B;C"`, quantity list
`"1;2"`, date list with three dates. -/
def fileC3 : List Str :=
  [chars "h\n",
   chars "Ana Cruz\taddr\tcity\tFrance\tEurope\tA;B;C\tK;K;K\td;d;d\t1;1;1\t1;2\t20230101;20230102;20230103\n"]

/-- One enumeration of the two-element category set
`{("A","d1"), ("A","d2")}` — two distinct tuples sharing the natural key
`"A"`.  CPython leaves a `set`'s iteration order unspecified (it varies with
hash randomization across processes), so either enumeration can reach
`sorted(cats, key=lambda x: x[0])`. -/
def enumC4a : List (Str × Str) := [(chars "A", chars "d1"), (chars "A", chars "d2")]

/-- The other enumeration of the same set. -/
def enumC4b : List (Str × Str) := [(chars "A", chars "d2"), (chars "A", chars "d1")]

/-- A row whose region field is `"Mars"`, declared by no other row. -/
def fileC7 : List Str :=
  [chars "h\n",
   chars "Alice\tAddr\tCity\tFrance\tMars\n"]

/-- A row whose customer name field is `"Jean Paul Gomez"`. -/
def fileC8 : List Str :=
  [chars "h\n",
   chars "Jean Paul Gomez\taddr\tcity\tFrance\tEurope\n"]

/-- A line whose fifth tab-field is a single space before the newline: the raw
line splits into 5 tab-fields, the stripped line into only 4. -/
def lineC9 : Str := chars "a\tb\tc\td\t \n"

/-- A file containing `lineC9`. -/
def fileC9 : List Str := [chars "h\n", lineC9]

/-- A row whose region field (index 4) is empty. -/
def fileC10 : List Str := [chars "h\n", chars "a\tb\tc\td\t\te\n"]

/-- A file of clean lines (used as a witness input). -/
def fileC10w : List Str :=
  [chars "h\n",
   chars "Bob Lee\taddr2\tcity2\tItaly\tEurope\n"]


theorem bleOf_lcmp_iff {α} [LinearOrder α] (a b : α) : bleOf lcmp a b = true ↔ a ≤ b := by
  unfold bleOf lcmp
  split_ifs with h1 h2
  · simpa using le_of_lt h1
  · simpa using not_le.mpr h2
  · have hab : a = b := le_antisymm (not_lt.mp h2) (not_lt.mp h1)
    simpa using le_of_eq hab

theorem lcmp_lawful {α} [LinearOrder α] : CmpLawful (lcmp (α := α)) := by
  refine ⟨fun a b => ?_, fun a b => ?_, fun a b d hab hbd => ?_⟩
  · unfold lcmp
    split_ifs with h1 h2
    · simp [ne_of_lt h1]
    · simp [(ne_of_lt h2).symm]
    · simp [le_antisymm (not_lt.mp h2) (not_lt.mp h1)]
  · unfold lcmp
    rcases lt_trichotomy a b with h | h | h
    · simp [h, not_lt.mpr h.le, Ordering.swap]
    · simp [h, lt_irrefl, Ordering.swap]
    · simp [h, not_lt.mpr h.le, Ordering.swap]
  · rw [bleOf_lcmp_iff] at *
    exact le_trans hab hbd

theorem Ordering.then_swap (o₁ o₂ : Ordering) : (o₁.then o₂).swap = o₁.swap.then o₂.swap := by
  cases o₁ <;> cases o₂ <;> rfl

theorem pcmp_lawful {α β} {ca : α → α → Ordering} {cb : β → β → Ordering}
    (ha : CmpLawful ca) (hb : CmpLawful cb) : CmpLawful (pcmp ca cb) := by
  obtain ⟨haE, haS, haT⟩ := ha
  obtain ⟨hbE, hbS, hbT⟩ := hb
  have hble : ∀ x y : α, bleOf ca x y = true ↔ (ca x y = .lt ∨ ca x y = .eq) := by
    intro x y
    unfold bleOf
    cases ca x y <;> simp
  have hble2 : ∀ x y : β, bleOf cb x y = true ↔ (cb x y = .lt ∨ cb x y = .eq) := by
    intro x y
    unfold bleOf
    cases cb x y <;> simp
  have hlt_asymm : ∀ x y : α, ca x y = .lt → ca y x = .lt → False := by
    intro x y h1 h2
    rw [haS x y, h2] at h1
    simp [Ordering.swap] at h1
  have hlt_trans : ∀ x y z : α, ca x y = .lt → ca y z = .lt → ca x z = .lt := by
    intro x y z h1 h2
    have h1' : bleOf ca x y = true := (hble x y).mpr (Or.inl h1)
    have h2' : bleOf ca y z = true := (hble y z).mpr (Or.inl h2)
    have h3 := haT x y z h1' h2'
    rcases (hble x z).mp h3 with h | h
    · exact h
    · exfalso
      have hxz : x = z := (haE x z).mp h
      subst hxz
      exact hlt_asymm x y h1 h2
  refine ⟨fun a b => ?_, fun a b => ?_, fun a b d hab hbd => ?_⟩
  · unfold pcmp
    cases h : ca a.1 b.1 with
    | lt =>
      simp only [Ordering.then]
      constructor
      · intro hh
        exact absurd hh (by simp)
      · intro hh
        rw [hh] at h
        rw [(haE b.1 b.1).mpr rfl] at h
        exact absurd h (by simp)
    | gt =>
      simp only [Ordering.then]
      constructor
      · intro hh
        exact absurd hh (by simp)
      · intro hh
        rw [hh] at h
        rw [(haE b.1 b.1).mpr rfl] at h
        exact absurd h (by simp)
    | eq =>
      have h1 : a.1 = b.1 := (haE a.1 b.1).mp h
      simp only [Ordering.then]
      rw [hbE a.2 b.2]
      constructor
      · intro h2
        exact Prod.ext h1 h2
      · intro h2
        exact congrArg Prod.snd h2
  · unfold pcmp
    rw [haS a.1 b.1, hbS a.2 b.2, Ordering.then_swap]
  · unfold pcmp at *
    unfold bleOf at hab hbd ⊢
    simp only [ne_eq, decide_eq_true_eq] at hab hbd ⊢
    cases h1 : ca a.1 b.1 <;> rw [h1] at hab <;> cases h2 : ca b.1 d.1 <;> rw [h2] at hbd
    all_goals simp only [Ordering.then] at hab hbd ⊢
    -- 9 cases on the first components
    · -- lt, lt
      rw [hlt_trans _ _ _ h1 h2]
      simp
    · -- lt, eq: b.1 = d.1
      have : b.1 = d.1 := (haE _ _).mp h2
      rw [← this, h1]
      simp
    · -- lt, gt: hbd is a contradiction
      simp at hbd
    · -- eq, lt: a.1 = b.1
      have : a.1 = b.1 := (haE _ _).mp h1
      rw [this, h2]
      simp
    · -- eq, eq
      have e1 : a.1 = b.1 := (haE _ _).mp h1
      have e2 : b.1 = d.1 := (haE _ _).mp h2
      rw [e1, e2, (haE d.1 d.1).mpr rfl]
      have := hbT a.2 b.2 d.2
      unfold bleOf at this
      simp only [ne_eq, decide_eq_true_eq] at this
      exact this hab hbd
    · -- eq, gt
      simp at hbd
    · -- gt, lt
      simp at hab
    · -- gt, eq
      simp at hab
    · -- gt, gt
      simp at hab

theorem cmp2_lawful {α β} [LinearOrder α] [LinearOrder β] :
    CmpLawful (cmp2 (α := α) (β := β)) := pcmp_lawful lcmp_lawful lcmp_lawful

theorem cmp3_lawful {α β γ} [LinearOrder α] [LinearOrder β] [LinearOrder γ] :
    CmpLawful (cmp3 (α := α) (β := β) (γ := γ)) :=
  pcmp_lawful lcmp_lawful (pcmp_lawful lcmp_lawful lcmp_lawful)

theorem cmpProdTriple_lawful : CmpLawful cmpProdTriple :=
  pcmp_lawful lcmp_lawful (pcmp_lawful lcmp_lawful (pcmp_lawful lcmp_lawful lcmp_lawful))

theorem cmpProdRow_lawful : CmpLawful cmpProdRow :=
  pcmp_lawful lcmp_lawful (pcmp_lawful (pcmp_lawful lcmp_lawful lcmp_lawful) lcmp_lawful)

theorem cmp5_lawful {α β γ δ ε} [LinearOrder α] [LinearOrder β] [LinearOrder γ]
    [LinearOrder δ] [LinearOrder ε] :
    CmpLawful (cmp5 (α := α) (β := β) (γ := γ) (δ := δ) (ε := ε)) :=
  pcmp_lawful lcmp_lawful (pcmp_lawful lcmp_lawful
    (pcmp_lawful lcmp_lawful (pcmp_lawful lcmp_lawful lcmp_lawful)))

theorem CmpLawful.leTotal {α} {c : α → α → Ordering} (h : CmpLawful c) (a b : α) :
    bleOf c a b = true ∨ bleOf c b a = true := by
  obtain ⟨hE, hS, _⟩ := h
  unfold bleOf
  cases hc : c a b
  · left; simp
  · left; simp
  · right
    rw [hS b a, hc]
    simp [Ordering.swap]

theorem CmpLawful.leAntisymm {α} {c : α → α → Ordering} (h : CmpLawful c) {a b : α}
    (hab : bleOf c a b = true) (hba : bleOf c b a = true) : a = b := by
  obtain ⟨hE, hS, _⟩ := h
  unfold bleOf at hab hba
  simp only [ne_eq, decide_eq_true_eq] at hab hba
  cases hc : c a b
  · exfalso
    apply hba
    rw [hS b a, hc]
    rfl
  · exact (hE a b).mp hc
  · exact absurd hc hab

theorem pySorted_perm {α} (le : α → α → Bool) (xs : List α) :
    List.Perm (pySorted le xs) xs := List.perm_insertionSort _ xs

theorem pySorted_mem {α} {le : α → α → Bool} {xs : List α} {a : α} :
    a ∈ pySorted le xs ↔ a ∈ xs := (pySorted_perm le xs).mem_iff

theorem pySorted_sorted {α} {le : α → α → Bool}
    (htrans : ∀ a b c, le a b → le b c → le a c)
    (htotal : ∀ a b, le a b || le b a) (xs : List α) :
    (pySorted le xs).Pairwise (fun a b => le a b = true) := by
  haveI : IsTotal α (fun a b => le a b = true) := ⟨fun a b => by
    have := htotal a b
    rcases Bool.or_eq_true_iff.mp this with h | h
    · exact Or.inl h
    · exact Or.inr h⟩
  haveI : IsTrans α (fun a b => le a b = true) := ⟨fun a b c hab hbc => htrans a b c hab hbc⟩
  exact List.sorted_insertionSort _ xs

theorem canonSet_perm_dedup {α} [DecidableEq α] (le : α → α → Bool) (xs : List α) :
    List.Perm (canonSet le xs) xs.dedup := List.perm_insertionSort _ xs.dedup

theorem canonSet_mem {α} [DecidableEq α] {le : α → α → Bool} {xs : List α} {a : α} :
    a ∈ canonSet le xs ↔ a ∈ xs :=
  ((canonSet_perm_dedup le xs).mem_iff).trans List.mem_dedup

theorem canonSet_nodup {α} [DecidableEq α] (le : α → α → Bool) (xs : List α) :
    (canonSet le xs).Nodup :=
  (canonSet_perm_dedup le xs).symm.nodup (List.nodup_dedup xs)

theorem canonSet_congr_perm {α} [DecidableEq α] {c : α → α → Ordering} (h : CmpLawful c)
    {xs ys : List α} (hp : List.Perm xs ys) :
    canonSet (bleOf c) xs = canonSet (bleOf c) ys := by
  haveI : IsAntisymm α (fun a b => bleOf c a b = true) := ⟨fun a b => h.leAntisymm⟩
  have hperm : List.Perm (canonSet (bleOf c) xs) (canonSet (bleOf c) ys) :=
    ((canonSet_perm_dedup _ xs).trans (hp.dedup)).trans (canonSet_perm_dedup _ ys).symm
  have hs1 : (canonSet (bleOf c) xs).Pairwise (fun a b => bleOf c a b = true) :=
    pySorted_sorted h.2.2
      (fun a b => by rcases h.leTotal a b with hh | hh <;> simp [hh]) xs.dedup
  have hs2 : (canonSet (bleOf c) ys).Pairwise (fun a b => bleOf c a b = true) :=
    pySorted_sorted h.2.2
      (fun a b => by rcases h.leTotal a b with hh | hh <;> simp [hh]) ys.dedup
  exact List.eq_of_perm_of_sorted hperm hs1 hs2

theorem lastIdx_isSome_iff {α} [DecidableEq α] (xs : List α) (a : α) :
    (lastIdx xs a).isSome ↔ a ∈ xs := by
  induction xs with
  | nil => simp [lastIdx]
  | cons x xs ih =>
    unfold lastIdx
    cases h : lastIdx xs a with
    | some i =>
      simp only [Option.isSome_some, true_iff]
      have : a ∈ xs := (ih).mp (by simp [h])
      exact List.mem_cons_of_mem x this
    | none =>
      have hnot : ¬ a ∈ xs := by
        rw [← ih]
        simp [h]
      by_cases hx : x = a
      · simp [hx]
      · rw [if_neg hx]
        simp only [Option.isSome_none, Bool.false_eq_true, false_iff, List.mem_cons]
        rintro (rfl | hmem)
        · exact hx rfl
        · exact hnot hmem

theorem lastIdx_getElem {α} [DecidableEq α] {xs : List α} {a : α} {i : Nat}
    (h : lastIdx xs a = some i) : xs[i]? = some a := by
  induction xs generalizing i with
  | nil => simp [lastIdx] at h
  | cons x xs ih =>
    unfold lastIdx at h
    cases hx : lastIdx xs a with
    | some j =>
      rw [hx] at h
      injection h with h
      subst h
      simpa using ih hx
    | none =>
      rw [hx] at h
      by_cases hxa : x = a
      · simp only [hxa, if_true] at h
        injection h with h
        subst h
        simp [hxa]
      · simp [hxa] at h

theorem lastIdx_lt_length {α} [DecidableEq α] {xs : List α} {a : α} {i : Nat}
    (h : lastIdx xs a = some i) : i < xs.length := by
  have := lastIdx_getElem h
  exact (List.getElem?_eq_some_iff.mp this).1

theorem lastIdx_inj {α} [DecidableEq α] {xs : List α} {a b : α} {i : Nat}
    (ha : lastIdx xs a = some i) (hb : lastIdx xs b = some i) : a = b := by
  have h1 := lastIdx_getElem ha
  have h2 := lastIdx_getElem hb
  rw [h1] at h2
  injection h2

theorem tableMap_isSome_iff {α} [DecidableEq α] (xs : List α) (a : α) :
    (tableMap xs a).isSome ↔ a ∈ xs := by
  rw [← lastIdx_isSome_iff xs a]
  unfold tableMap
  cases lastIdx xs a <;> simp

theorem tableMap_some {α} [DecidableEq α] {xs : List α} {a : α} {i : Nat}
    (h : tableMap xs a = some i) : ∃ j, i = j + 1 ∧ j < xs.length ∧ xs[j]? = some a := by
  unfold tableMap at h
  rw [Option.map_eq_some'] at h
  obtain ⟨j, hj, hij⟩ := h
  exact ⟨j, hij.symm, lastIdx_lt_length hj, lastIdx_getElem hj⟩

theorem tableMap_inj {α} [DecidableEq α] {xs : List α} {a b : α} {i : Nat}
    (ha : tableMap xs a = some i) (hb : tableMap xs b = some i) : a = b := by
  unfold tableMap at ha hb
  rw [Option.map_eq_some'] at ha hb
  obtain ⟨ja, hja, hija⟩ := ha
  obtain ⟨jb, hjb, hijb⟩ := hb
  have : ja = jb := by omega
  subst this
  exact lastIdx_inj hja hjb

theorem gatherLines_isSome {α β} {f : α → Option (List β)} {xs : List α}
    (h : ∀ x ∈ xs, (f x).isSome) : (gatherLines f xs).isSome := by
  induction xs with
  | nil => simp [gatherLines]
  | cons a as ih =>
    unfold gatherLines
    have ha := h a (List.mem_cons_self a as)
    have has : ∀ x ∈ as, (f x).isSome = true := fun x hx => h x (List.mem_cons_of_mem a hx)
    cases hfa : f a with
    | none => rw [hfa] at ha; simp at ha
    | some ys =>
      cases hga : gatherLines f as with
      | none =>
        have hih := ih has
        rw [hga] at hih
        simp at hih
      | some zs => simp

theorem gatherLines_mem {α β} {f : α → Option (List β)} {xs : List α} {ys : List β}
    (h : gatherLines f xs = some ys) {b : β} (hb : b ∈ ys) :
    ∃ x ∈ xs, ∃ zs, f x = some zs ∧ b ∈ zs := by
  induction xs generalizing ys with
  | nil =>
    unfold gatherLines at h
    injection h with h
    subst h
    simp at hb
  | cons a as ih =>
    unfold gatherLines at h
    cases hfa : f a with
    | none => rw [hfa] at h; simp at h
    | some zs =>
      rw [hfa] at h
      cases hga : gatherLines f as with
      | none => rw [hga] at h; simp at h
      | some ws =>
        rw [hga] at h
        injection h with h
        subst h
        rcases List.mem_append.mp hb with hz | hw
        · exact ⟨a, List.mem_cons_self a as, zs, hfa, hz⟩
        · obtain ⟨x, hx, zs', hzs', hb'⟩ := ih hga hw
          exact ⟨x, List.mem_cons_of_mem a hx, zs', hzs', hb'⟩

theorem gatherLines_eq_flatMap {α β} {f : α → Option (List β)} {g : α → List β} {xs : List α}
    (h : ∀ x ∈ xs, f x = some (g x)) : gatherLines f xs = some (xs.flatMap g) := by
  induction xs with
  | nil => simp [gatherLines]
  | cons a as ih =>
    unfold gatherLines
    rw [h a (List.mem_cons_self a as), ih (fun x hx => h x (List.mem_cons_of_mem a hx))]
    rfl

theorem zip3_length {α β γ} (xs : List α) (ys : List β) (zs : List γ) :
    (zip3 xs ys zs).length = min xs.length (min ys.length zs.length) := by
  unfold zip3
  simp [List.length_zip]

theorem splitOnPred_ne_nil {p : Char → Bool} {s : Str} : splitOnPred p s ≠ [] := by
  cases s with
  | nil => simp [splitOnPred]
  | cons c rest =>
    unfold splitOnPred
    by_cases h : p c
    · simp [h]
    · simp only [h, if_false]
      cases splitOnPred p rest <;> simp

theorem splitOnPred_pieces {p : Char → Bool} {s : Str} :
    ∀ x ∈ splitOnPred p s, ∀ c ∈ x, ¬ p c = true := by
  induction s with
  | nil =>
    intro x hx c hc
    simp [splitOnPred] at hx
    subst hx
    simp at hc
  | cons a rest ih =>
    intro x hx c hc
    unfold splitOnPred at hx
    by_cases h : p a
    · rw [if_pos h] at hx
      rcases List.mem_cons.mp hx with rfl | hx'
      · simp at hc
      · exact ih x hx' c hc
    · rw [if_neg h] at hx
      cases hrec : splitOnPred p rest with
      | nil => exact absurd hrec splitOnPred_ne_nil
      | cons s0 ss =>
        rw [hrec] at hx
        rcases List.mem_cons.mp hx with rfl | hx'
        · rcases List.mem_cons.mp hc with rfl | hc'
          · exact h
          · exact ih s0 (by rw [hrec]; exact List.mem_cons_self s0 ss) c hc'
        · exact ih x (by rw [hrec]; exact List.mem_cons_of_mem s0 hx') c hc

theorem dropWhile_eq_self_of_head {α} {p : α → Bool} {l : List α}
    (h : ∀ w : l ≠ [], ¬ p (l.head w) = true) : l.dropWhile p = l := by
  cases l with
  | nil => rfl
  | cons a as =>
    have : ¬ p a = true := h (by simp)
    simp [List.dropWhile_cons, this]

theorem dropWhile_of_forall_not {α} {p : α → Bool} {l : List α}
    (h : ∀ c ∈ l, ¬ p c = true) : l.dropWhile p = l := by
  cases l with
  | nil => rfl
  | cons a as => simp [List.dropWhile_cons, h a (List.mem_cons_self a as)]

theorem trimStr_of_ws_free {s : Str} (h : ∀ c ∈ s, ¬ isPyWs c = true) : trimStr s = s := by
  unfold trimStr
  rw [dropWhile_of_forall_not h]
  rw [dropWhile_of_forall_not (fun c hc => h c (List.mem_reverse.mp hc))]
  exact List.reverse_reverse s

theorem trimStr_headq_not {s : Str} {c : Char} (h : (trimStr s).head? = some c) :
    ¬ isPyWs c = true := by
  set p := isPyWs with hp
  set u := s.dropWhile p with hu
  have hvu : (u.reverse.dropWhile p).reverse <+: u := by
    rw [← List.reverse_suffix, List.reverse_reverse]
    exact List.dropWhile_suffix p
  have hts : trimStr s = (u.reverse.dropWhile p).reverse := rfl
  rw [hts] at h
  obtain ⟨r, hr⟩ := hvu
  have huh : u.head? = some c := by
    rw [← hr]
    cases hv : (u.reverse.dropWhile p).reverse with
    | nil => rw [hv] at h; simp at h
    | cons d ds =>
      rw [hv] at h
      simp only [List.head?_cons] at h
      injection h with h
      subst h
      simp
  have hwne : u ≠ [] := by
    intro hnil
    rw [hnil] at huh
    simp at huh
  have hhead : u.head hwne = c := by
    have := List.head?_eq_head hwne
    rw [huh] at this
    injection this with h2
    exact h2.symm
  have hfalse := List.head_dropWhile_not p s hwne
  rw [hhead] at hfalse
  simp [hfalse]

theorem trimStr_lastq_not {s : Str} {c : Char} (h : (trimStr s).getLast? = some c) :
    ¬ isPyWs c = true := by
  set p := isPyWs with hp
  set u := s.dropWhile p with hu
  have hts : trimStr s = (u.reverse.dropWhile p).reverse := rfl
  rw [hts, List.getLast?_reverse] at h
  have hwne : u.reverse.dropWhile p ≠ [] := by
    intro hnil
    rw [hnil] at h
    simp at h
  have hhead : (u.reverse.dropWhile p).head hwne = c := by
    have := List.head?_eq_head hwne
    rw [h] at this
    injection this with h2
    exact h2.symm
  have hfalse := List.head_dropWhile_not p u.reverse hwne
  rw [hhead] at hfalse
  simp [hfalse]

theorem dropWhile_eq_self_of_headq {α} {p : α → Bool} {l : List α}
    (h : ∀ c, l.head? = some c → ¬ p c = true) : l.dropWhile p = l := by
  cases l with
  | nil => rfl
  | cons a as => simp [List.dropWhile_cons, h a rfl]

theorem trimStr_idem (s : Str) : trimStr (trimStr s) = trimStr s := by
  have h1 : (trimStr s).dropWhile isPyWs = trimStr s :=
    dropWhile_eq_self_of_headq (fun c hc => trimStr_headq_not hc)
  have h2 : (trimStr s).reverse.dropWhile isPyWs = (trimStr s).reverse :=
    dropWhile_eq_self_of_headq (fun c hc =>
      trimStr_lastq_not (by rwa [List.head?_reverse] at hc))
  show ((((trimStr s).dropWhile isPyWs).reverse).dropWhile isPyWs).reverse = trimStr s
  rw [h1, h2, List.reverse_reverse]

/-- **C1, counterexample.**  The claim says a non-numeric price token is
dropped at its own list position only and that no parse failure aborts the
run.  On `fileC1` (price list `"1.50;N/A"`), the SQLite Product step
(`step9_create_product_table`) reaches `float("N/A")` with no `try`/`except`:
the `ValueError` aborts the whole run — the valid sibling `Cola` is not
inserted either. -/
theorem C1_counterexample : sqRun fileC1 = none := by decide

/-- **C1, amended.**  In `populate_db.py` a parse failure drops only its own
list position and never aborts: on `fileC1` (`"1.50;N/A"`) the Product table
gets exactly the valid sibling `Cola` at 1.50 (= 15/10); on `fileC1o` (quantity list
`"3;x"`) the OrderDetail extractor keeps the valid position `(Cola, qty 3,
2023-01-01)` and drops the bad one.  In `mini_project2.py` the same
OrderDetail input aborts the run (unguarded `int("x")`). -/
theorem C1_amended :
    pgProductTable fileC1 = [(chars "Cola", (15, 1), 1)] ∧
    pgOrderTable fileC1o = [(1, 1, (2023, 1, 1), 3)] ∧
    sqRun fileC1o = none := by
  refine ⟨by decide, by decide, by decide⟩

/-- **C2, counterexample.**  The claim says no two Country rows ever carry the
same country name.  On `fileC2`, where `"France"` is declared under both
`"Europe"` and `"Asia"`, the PostgreSQL pipeline inserts two Country rows both
named `France` (deduplication is by the `(country, region)` pair, not by the
country name). -/
theorem C2_counterexample :
    (pgCountryTable fileC2).map (·.1) = [chars "France", chars "France"] := by decide

/-- **C3.**  Shortest-list truncation of the OrderDetail zip: on `fileC3`
(product list `"A;B;C"`, quantity list `"1;2"`, three dates) both pipelines
produce exactly two OrderDetail rows — `(A, qty 1, 2023-01-01)` and
`(B, qty 2, 2023-01-02)` (product ids 1 and 2 are the rows of `A` and `B`);
`C` and the third date are ignored.  In general the zipped length is the
minimum of the three list lengths. -/
theorem C3_shortest_zip :
    pgOrderTable fileC3 = [(1, 1, (2023, 1, 1), 1), (1, 2, (2023, 1, 2), 2)] ∧
    (sqRun fileC3).map SqTables.orderdetail =
      some [(1, 1, chars "2023-01-01", 1), (1, 2, chars "2023-01-02", 2)] ∧
    ∀ (xs ys zs : List Str), (zip3 xs ys zs).length = min xs.length (min ys.length zs.length) :=
  ⟨by decide, by decide, fun xs ys zs => zip3_length xs ys zs⟩

/-- **C6, counterexample.**  The claim says every extractor trims every field
and discards records with empty names, so no persisted Region row has an empty
name.  On `fileC10` (region field empty) the SQLite run completes and persists
a Region row whose name is the empty string (`step1_create_region_table`
neither trims fields nor filters empty names). -/
theorem C6_counterexample : (sqRun fileC10).map SqTables.region = some [chars ""] := by decide

/-- **C7, counterexample.**  The claim says a row whose region field is
`"Mars"` (declared by no other row) yields no Country row.  But both pipelines
build the Region table from field 4 of the *same* rows, so the row itself
declares `Mars` as a region, the lookup succeeds, and a Country row for
`France` (region id 1 = `Mars`) is inserted. -/
theorem C7_counterexample : pgCountryTable fileC7 = [(chars "France", 1)] := by decide

/-- **C9, counterexample.**  The claim says the field-count guard
`len(l.split('\t')) > k` keeps all accesses on `l.strip().split('\t')` in
bounds, including for whitespace-only trailing fields.  On `lineC9`
(`"a\tb\tc\td\t \n"`, last field a single space) the raw line has 5 tab-fields
so the guard passes, but the stripped line has only 4 — index `[4]` is out of
bounds and `step1_create_region_table` raises `IndexError`. -/
theorem C9_counterexample :
    4 < (splitTab lineC9).length ∧ (sqParts lineC9)[4]? = none ∧
      sqRegionRows fileC9 = none := by
  refine ⟨by decide, by decide, by decide⟩

/-- **C10, counterexample.**  The claim says the SQLite and PostgreSQL
pipelines produce the same logical contents for all six tables on every input.
On `fileC10` (empty region field) the SQLite Region table has one row (the
empty name) while the PostgreSQL Region table is empty. -/
theorem C10_counterexample :
    sqRegionRows fileC10 = some [chars ""] ∧ pgRegionTable fileC10 = [] := by
  refine ⟨by decide, by decide⟩

/-- **C7, amended.**  A raw row's own region field is itself a region
declaration: both extractors build the Region set from field 4 of the same
rows.  In the PostgreSQL pipeline, any data line with more than 4 tab-fields
whose trimmed country and region fields are nonempty contributes a Country row
for that country — the region lookup can never fail, orphan or not. -/
theorem C7_amended : ∀ (f : List Str) (l : Str), l ∈ dataLines f →
    4 < (pgLineParts l).length →
    trimStr ((pgLineParts l).getD 3 []) ≠ [] →
    trimStr ((pgLineParts l).getD 4 []) ≠ [] →
    trimStr ((pgLineParts l).getD 3 []) ∈ (pgCountryTable f).map (·.1) := by
  intro f l hl hlen hc hr
  have hrraw : trimStr ((pgLineParts l).getD 4 []) ∈ pgRegionRaw f := by
    unfold pgRegionRaw
    rw [List.mem_filterMap]
    refine ⟨l, hl, ?_⟩
    simp only [hlen, hr, and_self, if_true, ne_eq, not_false_iff]
  have hrtab : trimStr ((pgLineParts l).getD 4 []) ∈ pgRegionTable f := canonSet_mem.mpr hrraw
  have hrmap : (pgRegionMap f (trimStr ((pgLineParts l).getD 4 []))).isSome :=
    (tableMap_isSome_iff _ _).mpr hrtab
  have hpair : (trimStr ((pgLineParts l).getD 3 []), trimStr ((pgLineParts l).getD 4 [])) ∈
      pgCountryRaw f := by
    unfold pgCountryRaw
    rw [List.mem_filterMap]
    refine ⟨l, hl, ?_⟩
    simp only [hlen, if_true, hc, hr, ne_eq, not_false_iff, and_self]
  have hpairs : (trimStr ((pgLineParts l).getD 3 []), trimStr ((pgLineParts l).getD 4 [])) ∈
      pgCountryPairs f := by
    unfold pgCountryPairs
    rw [pySorted_mem]
    exact canonSet_mem.mpr hpair
  obtain ⟨rid, hrid⟩ := Option.isSome_iff_exists.mp hrmap
  rw [List.mem_map]
  refine ⟨(trimStr ((pgLineParts l).getD 3 []), rid), ?_, rfl⟩
  unfold pgCountryTable
  rw [List.mem_filterMap]
  exact ⟨_, hpairs, by rw [hrid]; rfl⟩

/-- Witness for `C7_amended` at the `fileC7` row (`France` / `Mars`). -/
theorem C7_amended_witness :
    (chars "Alice\tAddr\tCity\tFrance\tMars\n") ∈ dataLines fileC7 ∧
    4 < (pgLineParts (chars "Alice\tAddr\tCity\tFrance\tMars\n")).length ∧
    trimStr ((pgLineParts (chars "Alice\tAddr\tCity\tFrance\tMars\n")).getD 3 []) ∈
      (pgCountryTable fileC7).map (·.1) :=
  ⟨by decide, by decide,
    C7_amended fileC7 (chars "Alice\tAddr\tCity\tFrance\tMars\n")
      (by decide) (by decide) (by decide) (by decide)⟩

theorem pySorted_canonSet_nodup {α} [DecidableEq α] (le₁ le₂ : α → α → Bool) (xs : List α) :
    (pySorted le₁ (canonSet le₂ xs)).Nodup :=
  (pySorted_perm le₁ (canonSet le₂ xs)).symm.nodup (canonSet_nodup le₂ xs)

/-- **C2, amended.**  Deduplication is by the *full extracted tuple*, not by
the natural key alone: in every PostgreSQL run no two persisted rows of the
same entity table are identical in all attributes (rows may still share a
name when it recurs with a different region / description / price / country,
as `C2_counterexample` shows). -/
theorem C2_amended : ∀ f : List Str,
    (pgRegionTable f).Nodup ∧ (pgCountryTable f).Nodup ∧ (pgCategoryTable f).Nodup ∧
    (pgProductTable f).Nodup ∧ (pgCustomerTable f).Nodup := by
  intro f
  refine ⟨canonSet_nodup _ _, ?_, pySorted_canonSet_nodup _ _ _, ?_, ?_⟩
  · -- Country: (country, region) pairs are distinct and region ids identify regions
    unfold pgCountryTable
    apply List.Nodup.filterMap
    · intro a a' b hb hb'
      rw [Option.mem_def, Option.map_eq_some'] at hb hb'
      obtain ⟨rid, hrid, hba⟩ := hb
      obtain ⟨rid', hrid', hba'⟩ := hb'
      have h1 : a.1 = b.1 := by rw [← hba]
      have h1' : a'.1 = b.1 := by rw [← hba']
      have h2 : rid = b.2 := by rw [← hba]
      have h2' : rid' = b.2 := by rw [← hba']
      subst h2
      subst h2'
      have := tableMap_inj hrid hrid'
      exact Prod.ext (h1.trans h1'.symm) this
    · exact pySorted_canonSet_nodup _ _ _
  · -- Product: triples are distinct and category ids identify categories
    unfold pgProductTable
    apply List.Nodup.filterMap
    · intro a a' b hb hb'
      rw [Option.mem_def, Option.map_eq_some'] at hb hb'
      obtain ⟨cid, hcid, hba⟩ := hb
      obtain ⟨cid', hcid', hba'⟩ := hb'
      have h1 : a.1 = b.1 := by rw [← hba]
      have h1' : a'.1 = b.1 := by rw [← hba']
      have h3 : a.2.2 = b.2.1 := by rw [← hba]
      have h3' : a'.2.2 = b.2.1 := by rw [← hba']
      have h2 : cid = b.2.2 := by rw [← hba]
      have h2' : cid' = b.2.2 := by rw [← hba']
      subst h2
      subst h2'
      have hcat := tableMap_inj hcid hcid'
      refine Prod.ext (h1.trans h1'.symm) (Prod.ext hcat (h3.trans h3'.symm))
    · exact pySorted_canonSet_nodup _ _ _
  · -- Customer: 5-tuples are distinct and country ids identify countries
    unfold pgCustomerTable
    apply List.Nodup.filterMap
    · intro a a' b hb hb'
      rw [Option.mem_def, Option.map_eq_some'] at hb hb'
      obtain ⟨cid, hcid, hba⟩ := hb
      obtain ⟨cid', hcid', hba'⟩ := hb'
      have h1 : a.1 = b.1 := by rw [← hba]
      have h2 : a.2.1 = b.2.1 := by rw [← hba]
      have h3 : a.2.2.1 = b.2.2.1 := by rw [← hba]
      have h4 : a.2.2.2.1 = b.2.2.2.1 := by rw [← hba]
      have hc : cid = b.2.2.2.2 := by rw [← hba]
      have h1' : a'.1 = b.1 := by rw [← hba']
      have h2' : a'.2.1 = b.2.1 := by rw [← hba']
      have h3' : a'.2.2.1 = b.2.2.1 := by rw [← hba']
      have h4' : a'.2.2.2.1 = b.2.2.2.1 := by rw [← hba']
      have hc' : cid' = b.2.2.2.2 := by rw [← hba']
      subst hc
      subst hc'
      have hcountry := tableMap_inj hcid hcid'
      refine Prod.ext (h1.trans h1'.symm) (Prod.ext (h2.trans h2'.symm)
        (Prod.ext (h3.trans h3'.symm) (Prod.ext (h4.trans h4'.symm) hcountry)))
    · exact pySorted_canonSet_nodup _ _ _

theorem splitWs_headD_spec {name : Str} (hne : name ≠ []) (ht : trimStr name = name) :
    (splitWs name).headD [] ≠ [] ∧ ∀ ch ∈ (splitWs name).headD [], ¬ isPyWs ch = true := by
  have hsplit : ∃ c s0 ss, splitOnPred isPyWs name = (c :: s0) :: ss := by
    cases hn : name with
    | nil => exact absurd hn hne
    | cons c rest =>
      have hc : ¬ isPyWs c = true := by
        apply trimStr_headq_not (s := name)
        rw [ht, hn]
        rfl
      cases hrec : splitOnPred isPyWs rest with
      | nil => exact absurd hrec splitOnPred_ne_nil
      | cons s0 ss =>
        refine ⟨c, s0, ss, ?_⟩
        unfold splitOnPred
        rw [if_neg hc, hrec]
  obtain ⟨c, s0, ss, hss⟩ := hsplit
  have hhd : (splitWs name).headD [] = c :: s0 := by
    unfold splitWs
    rw [hss]
    simp only [List.filter_cons]
    simp
  rw [hhd]
  have hmem : (c :: s0) ∈ splitOnPred isPyWs name := by
    rw [hss]
    exact List.mem_cons_self _ _
  refine ⟨by simp, fun ch hch => ?_⟩
  exact splitOnPred_pieces (c :: s0) hmem ch hch

/-- **C6, amended.**  The PostgreSQL extractors trim every extracted name and
discard records whose name is empty after trimming: in every run, no persisted
Region, Country, ProductCategory, Product, or Customer row has an empty name
field, and each such name is its own trim.  (The SQLite steps do neither:
`C6_counterexample` shows an empty, untrimmed Region name being persisted.) -/
theorem C6_amended : ∀ f : List Str,
    (∀ r ∈ pgRegionTable f, r ≠ [] ∧ trimStr r = r) ∧
    (∀ p ∈ pgCountryTable f, p.1 ≠ [] ∧ trimStr p.1 = p.1) ∧
    (∀ p ∈ pgCategoryTable f, p.1 ≠ [] ∧ trimStr p.1 = p.1) ∧
    (∀ p ∈ pgProductTable f, p.1 ≠ [] ∧ trimStr p.1 = p.1) ∧
    (∀ c ∈ pgCustomerTable f, c.1 ≠ [] ∧ trimStr c.1 = c.1) := by
  intro f
  have hreg : ∀ r ∈ pgRegionRaw f, r ≠ [] ∧ trimStr r = r := by
    intro r hr
    unfold pgRegionRaw at hr
    rw [List.mem_filterMap] at hr
    obtain ⟨l, _, heq⟩ := hr
    split_ifs at heq with hcond
    injection heq with heq
    subst heq
    exact ⟨hcond.2, trimStr_idem _⟩
  have hcountry : ∀ p ∈ pgCountryRaw f, p.1 ≠ [] ∧ trimStr p.1 = p.1 := by
    intro p hp
    unfold pgCountryRaw at hp
    rw [List.mem_filterMap] at hp
    obtain ⟨l, _, heq⟩ := hp
    split_ifs at heq with h1 h2
    injection heq with heq
    subst heq
    exact ⟨h2.1, trimStr_idem _⟩
  have hcat : ∀ p ∈ pgCategoryRaw f, p.1 ≠ [] ∧ trimStr p.1 = p.1 := by
    intro p hp
    unfold pgCategoryRaw at hp
    rw [List.mem_flatMap] at hp
    obtain ⟨l, _, hmem⟩ := hp
    split_ifs at hmem with h1
    · rw [List.mem_filterMap] at hmem
      obtain ⟨cd, _, heq⟩ := hmem
      split_ifs at heq with h2
      injection heq with heq
      subst heq
      exact ⟨h2, trimStr_idem _⟩
    · simp at hmem
  have hprod : ∀ p ∈ pgProductRaw f, p.1 ≠ [] ∧ trimStr p.1 = p.1 := by
    intro p hp
    unfold pgProductRaw at hp
    rw [List.mem_flatMap] at hp
    obtain ⟨l, _, hmem⟩ := hp
    split_ifs at hmem with h1
    · rw [List.mem_filterMap] at hmem
      obtain ⟨t, _, heq⟩ := hmem
      split_ifs at heq with h2
      rw [Option.map_eq_some'] at heq
      obtain ⟨v, _, heq⟩ := heq
      subst heq
      exact ⟨h2.1, trimStr_idem _⟩
    · simp at hmem
  have hcust : ∀ valid, ∀ c ∈ pgCustomerRaw f valid, c.1 ≠ [] ∧ trimStr c.1 = c.1 := by
    intro valid c hc
    unfold pgCustomerRaw at hc
    rw [List.mem_filterMap] at hc
    obtain ⟨l, _, heq⟩ := hc
    split_ifs at heq with h1 h2 h3
    injection heq with heq
    subst heq
    have hspec := splitWs_headD_spec h3 (trimStr_idem _)
    exact ⟨hspec.1, trimStr_of_ws_free hspec.2⟩
  refine ⟨?_, ?_, ?_, ?_, ?_⟩
  · intro r hr
    exact hreg r (canonSet_mem.mp hr)
  · intro p hp
    unfold pgCountryTable at hp
    rw [List.mem_filterMap] at hp
    obtain ⟨q, hq, heq⟩ := hp
    rw [Option.map_eq_some'] at heq
    obtain ⟨rid, _, heq⟩ := heq
    have h1 : p.1 = q.1 := by rw [← heq]
    rw [h1]
    exact hcountry q (canonSet_mem.mp (pySorted_mem.mp hq))
  · intro p hp
    have : p ∈ pgCategoryRaw f := canonSet_mem.mp (pySorted_mem.mp hp)
    exact hcat p this
  · intro p hp
    unfold pgProductTable at hp
    rw [List.mem_filterMap] at hp
    obtain ⟨q, hq, heq⟩ := hp
    rw [Option.map_eq_some'] at heq
    obtain ⟨cid, _, heq⟩ := heq
    have h1 : p.1 = q.1 := by rw [← heq]
    rw [h1]
    exact (hprod q (canonSet_mem.mp (pySorted_mem.mp hq)))
  · intro c hcm
    unfold pgCustomerTable at hcm
    rw [List.mem_filterMap] at hcm
    obtain ⟨q, hq, heq⟩ := hcm
    rw [Option.map_eq_some'] at heq
    obtain ⟨cid, _, heq⟩ := heq
    have h1 : c.1 = q.1 := by rw [← heq]
    rw [h1]
    exact hcust _ q (canonSet_mem.mp (pySorted_mem.mp hq))

/-- Witness for `C6_amended`: the region row of `fileC10w` is nonempty and
already trimmed. -/
theorem C6_amended_witness :
    (chars "Europe") ∈ pgRegionTable fileC10w ∧
    (chars "Europe" ≠ [] ∧ trimStr (chars "Europe") = chars "Europe") :=
  ⟨by decide, (C6_amended fileC10w).1 (chars "Europe") (by decide)⟩

/-- **C8.**  Customer name splitting and the country guard, as implemented by
`parse_customers`: `"Jean Paul Gomez"` splits to first `"Jean"`, last
`"Paul Gomez"`; and every tuple the Customer extractor keeps has a country
accepted by the lookup and comes from a data line with more than 4 tab-fields
whose trimmed name field was split by `pgSplitName` (first whitespace token,
remaining tokens joined by single spaces). -/
theorem C8_customer_split :
    pgSplitName (chars "Jean Paul Gomez") = (chars "Jean", chars "Paul Gomez") ∧
    ∀ (f : List Str) (valid : Str → Bool) t, t ∈ pgCustomerTuples f valid →
      valid t.2.2.2.2 = true ∧
      ∃ l ∈ dataLines f,
        4 < (pgLineParts l).length ∧
        t.1 = (pgSplitName (trimStr ((pgLineParts l).getD 0 []))).1 ∧
        t.2.1 = (pgSplitName (trimStr ((pgLineParts l).getD 0 []))).2 ∧
        t.2.2.2.2 = trimStr ((pgLineParts l).getD 3 []) := by
  refine ⟨by decide, ?_⟩
  intro f valid t ht
  have hraw : t ∈ pgCustomerRaw f valid := canonSet_mem.mp (pySorted_mem.mp ht)
  unfold pgCustomerRaw at hraw
  rw [List.mem_filterMap] at hraw
  obtain ⟨l, hl, heq⟩ := hraw
  split_ifs at heq with h1 h2 h3
  injection heq with heq
  subst heq
  rw [not_or, not_not] at h2
  exact ⟨h2.2, l, hl, h1, rfl, rfl, rfl⟩

/-- Witness for `C8_customer_split` on `fileC8`. -/
theorem C8_customer_split_witness :
    (chars "Jean", chars "Paul Gomez", chars "addr", chars "city", chars "France") ∈
      pgCustomerTuples fileC8 (pgValidCountry fileC8) ∧
    pgValidCountry fileC8
      (chars "Jean", chars "Paul Gomez", chars "addr", chars "city",
        chars "France").2.2.2.2 = true ∧
    ∃ l ∈ dataLines fileC8,
      4 < (pgLineParts l).length ∧
      (chars "Jean", chars "Paul Gomez", chars "addr", chars "city", chars "France").1 =
        (pgSplitName (trimStr ((pgLineParts l).getD 0 []))).1 ∧
      (chars "Jean", chars "Paul Gomez", chars "addr", chars "city", chars "France").2.1 =
        (pgSplitName (trimStr ((pgLineParts l).getD 0 []))).2 ∧
      (chars "Jean", chars "Paul Gomez", chars "addr", chars "city",
        chars "France").2.2.2.2 = trimStr ((pgLineParts l).getD 3 []) :=
  ⟨by decide,
    C8_customer_split.2 fileC8 (pgValidCountry fileC8)
      (chars "Jean", chars "Paul Gomez", chars "addr", chars "city", chars "France")
      (by decide)⟩

/-- **C9, amended.**  In `populate_db.py` the guard and the accesses use the
same field list, so extraction never indexes out of bounds.  In
`mini_project2.py` the guard counts fields of the *raw* line while the
accesses index the *stripped* line: the accesses are in bounds — and
`step1_create_region_table` completes — only on lines whose stripped field
count equals the raw field count; a whitespace-only trailing field violates
that premise (`C9_counterexample`). -/
theorem C9_amended :
    (∀ f : List Str, (∀ l ∈ dataLines f,
        (splitTab (trimStr l)).length = (splitTab l).length) →
      (sqRegionRows f).isSome) ∧
    (∀ l : Str, 4 < (splitTab (trimStr l)).length → ((sqParts l)[4]?).isSome) ∧
    (∀ (l : Str) (k : Nat), k < (pgLineParts l).length → ((pgLineParts l)[k]?).isSome) := by
  refine ⟨?_, ?_, ?_⟩
  · intro f h
    unfold sqRegionRows
    rw [Option.isSome_map']
    apply gatherLines_isSome
    intro l hl
    by_cases hg : 4 < (splitTab l).length
    · rw [if_pos hg]
      have hlt : 4 < (sqParts l).length := by
        unfold sqParts
        rw [h l hl]
        exact hg
      obtain ⟨x, hx⟩ : ∃ x, (sqParts l)[4]? = some x := by
        have := List.getElem?_eq_getElem hlt
        exact ⟨_, this⟩
      rw [hx]
      simp
    · rw [if_neg hg]
      simp
  · intro l h4
    have := List.getElem?_eq_getElem (l := sqParts l) (n := 4) h4
    rw [this]
    simp
  · intro l k hk
    have := List.getElem?_eq_getElem (l := pgLineParts l) (n := k) hk
    rw [this]
    simp

/-- Witness for `C9_amended` at `fileC10w`, whose line loses no tab-fields
under `strip`. -/
theorem C9_amended_witness :
    (∀ l ∈ dataLines fileC10w, (splitTab (trimStr l)).length = (splitTab l).length) ∧
    (sqRegionRows fileC10w).isSome ∧
    4 < (splitTab (trimStr (chars "Bob Lee\taddr2\tcity2\tItaly\tEurope\n"))).length ∧
    ((sqParts (chars "Bob Lee\taddr2\tcity2\tItaly\tEurope\n"))[4]?).isSome :=
  ⟨by decide, C9_amended.1 fileC10w (by decide), by decide,
    C9_amended.2.1 (chars "Bob Lee\taddr2\tcity2\tItaly\tEurope\n") (by decide)⟩

theorem lleB_trans {α} [LinearOrder α] :
    ∀ a b c : α, lleB a b → lleB b c → lleB a c := by
  intro a b c hab hbc
  rw [show lleB = fun x y : α => bleOf lcmp x y from rfl] at *
  rw [bleOf_lcmp_iff] at *
  exact le_trans hab hbc

theorem lleB_total {α} [LinearOrder α] : ∀ a b : α, lleB a b || lleB b a := by
  intro a b
  rcases le_total a b with h | h
  · have : lleB a b = true := (bleOf_lcmp_iff a b).mpr h
    simp [this]
  · have : lleB b a = true := (bleOf_lcmp_iff b a).mpr h
    simp [this]

theorem leFst_trans {α β} [LinearOrder α] :
    ∀ x y z : α × β, leFst x y → leFst y z → leFst x z := by
  intro x y z hxy hyz
  unfold leFst at *
  rw [bleOf_lcmp_iff] at *
  exact le_trans hxy hyz

theorem leFst_total {α β} [LinearOrder α] : ∀ x y : α × β, leFst x y || leFst y x := by
  intro x y
  rcases le_total x.1 y.1 with h | h
  · have : leFst x y = true := (bleOf_lcmp_iff x.1 y.1).mpr h
    simp [this]
  · have : leFst y x = true := (bleOf_lcmp_iff y.1 x.1).mpr h
    simp [this]

theorem leCustKey_trans {β} :
    ∀ x y z : Str × Str × β, leCustKey x y → leCustKey y z → leCustKey x z := by
  intro x y z hxy hyz
  unfold leCustKey at *
  rw [bleOf_lcmp_iff] at *
  exact le_trans hxy hyz

theorem leCustKey_total {β} : ∀ x y : Str × Str × β, leCustKey x y || leCustKey y x := by
  intro x y
  unfold leCustKey
  rcases le_total (custKey x) (custKey y) with h | h
  · have hb : bleOf lcmp (custKey x) (custKey y) = true := (bleOf_lcmp_iff _ _).mpr h
    simp [hb]
  · have hb : bleOf lcmp (custKey y) (custKey x) = true := (bleOf_lcmp_iff _ _).mpr h
    simp [hb]

/-- Two lists that are permutations of each other, are both sorted by a key
`k`, and whose elements have pairwise distinct keys, are equal.  (Without the
key-injectivity hypothesis this fails — see `C4_counterexample`.) -/
theorem eq_of_perm_of_keySorted {α κ} [LinearOrder κ] (k : α → κ) :
    ∀ (l₁ l₂ : List α), List.Perm l₁ l₂ →
      l₁.Pairwise (fun a b => k a ≤ k b) → l₂.Pairwise (fun a b => k a ≤ k b) →
      (∀ a ∈ l₁, ∀ b ∈ l₁, k a = k b → a = b) → l₁ = l₂ := by
  intro l₁
  induction l₁ with
  | nil =>
    intro l₂ hp _ _ _
    exact (List.Perm.eq_nil hp.symm).symm
  | cons a t₁ ih =>
    intro l₂ hp hs₁ hs₂ hinj
    cases l₂ with
    | nil =>
      have := hp.length_eq
      simp at this
    | cons b t₂ =>
      have hab : a = b := by
        have hamem : a ∈ b :: t₂ := hp.mem_iff.mp (List.mem_cons_self a t₁)
        have hbmem : b ∈ a :: t₁ := hp.mem_iff.mpr (List.mem_cons_self b t₂)
        rcases List.mem_cons.mp hamem with h | ha2
        · exact h
        · rcases List.mem_cons.mp hbmem with h | hb1
          · exact h.symm
          · have h1 : k a ≤ k b := List.rel_of_pairwise_cons hs₁ hb1
            have h2 : k b ≤ k a := List.rel_of_pairwise_cons hs₂ ha2
            exact hinj a (List.mem_cons_self a t₁) b (List.mem_cons_of_mem a hb1)
              (le_antisymm h1 h2)
      subst hab
      have hpt : List.Perm t₁ t₂ := hp.cons_inv
      have := ih t₂ hpt (List.Pairwise.of_cons hs₁) (List.Pairwise.of_cons hs₂)
        (fun x hx y hy hk => hinj x (List.mem_cons_of_mem a hx) y
          (List.mem_cons_of_mem a hy) hk)
      rw [this]

/-- **C4, counterexample.**  The claim says insertion order is deterministic
so that reloads reproduce identical contents and surrogate ids.  But
`sorted(cats, key=lambda x: x[0])` is a *stable* sort fed from a Python `set`,
whose iteration order is unspecified and varies across process runs under
hash randomization.  For the category set `{("A","d1"), ("A","d2")}` — two
rows tying on the natural key `"A"` (such ties are reachable:
`C2_counterexample`) — the two possible enumerations produce two *different*
insertion orders, hence different row/surrogate-id assignments on reload. -/
theorem C4_counterexample :
    List.Perm enumC4a enumC4b ∧ enumC4a.Nodup ∧ enumC4b.Nodup ∧
      pgCategoriesOfEnum enumC4a ≠ pgCategoriesOfEnum enumC4b := by
  refine ⟨by decide, by decide, by decide, by decide⟩

/-- **C4, amended.**  Rows within each PostgreSQL entity table are inserted
in nondecreasing order of the entity's natural key — the name for Region,
Country, ProductCategory, and Product, and the string `first + " " + last`
for Customer.  The stable key-sort makes this insertion order (hence the
surrogate-id assignment) independent of the set's enumeration exactly when no
two distinct extracted tuples share the sort key: rows tying on the natural
key inherit Python's unspecified, process-varying set iteration order
(`C4_counterexample`), so byte-identical reproduction across reruns is
guaranteed only for tie-free extractions. -/
theorem C4_amended :
    (∀ f : List Str,
      (pgRegionTable f).Pairwise (fun a b => lleB a b = true) ∧
      (pgCountryTable f).Pairwise (fun x y => leFst x y = true) ∧
      (pgCategoryTable f).Pairwise (fun x y => leFst x y = true) ∧
      (pgProductTable f).Pairwise (fun x y => leFst x y = true) ∧
      (pgCustomerTable f).Pairwise (fun x y => leCustKey x y = true)) ∧
    (∀ e₁ e₂ : List (Str × Str), List.Perm e₁ e₂ →
      (∀ a ∈ e₁, ∀ b ∈ e₁, a.1 = b.1 → a = b) →
      pgCategoriesOfEnum e₁ = pgCategoriesOfEnum e₂) := by
  constructor
  · intro f
    refine ⟨pySorted_sorted lleB_trans lleB_total _, ?_, ?_, ?_, ?_⟩
    · unfold pgCountryTable
      refine List.Pairwise.filterMap _ ?_ (pySorted_sorted leFst_trans leFst_total _)
      intro a b hab x hx y hy
      rw [Option.mem_def, Option.map_eq_some'] at hx hy
      obtain ⟨ridx, _, hx⟩ := hx
      obtain ⟨ridy, _, hy⟩ := hy
      subst hx
      subst hy
      exact hab
    · exact pySorted_sorted leFst_trans leFst_total _
    · unfold pgProductTable
      refine List.Pairwise.filterMap _ ?_ (pySorted_sorted leFst_trans leFst_total _)
      intro a b hab x hx y hy
      rw [Option.mem_def, Option.map_eq_some'] at hx hy
      obtain ⟨cidx, _, hx⟩ := hx
      obtain ⟨cidy, _, hy⟩ := hy
      subst hx
      subst hy
      exact hab
    · unfold pgCustomerTable
      refine List.Pairwise.filterMap _ ?_ (pySorted_sorted leCustKey_trans leCustKey_total _)
      intro a b hab x hx y hy
      rw [Option.mem_def, Option.map_eq_some'] at hx hy
      obtain ⟨cidx, _, hx⟩ := hx
      obtain ⟨cidy, _, hy⟩ := hy
      subst hx
      subst hy
      exact hab
  · intro e₁ e₂ hp hinj
    unfold pgCategoriesOfEnum
    apply eq_of_perm_of_keySorted (fun x : Str × Str => x.1)
    · exact (pySorted_perm leFst e₁).trans (hp.trans (pySorted_perm leFst e₂).symm)
    · exact (pySorted_sorted leFst_trans leFst_total e₁).imp
        (fun h => (bleOf_lcmp_iff _ _).mp h)
    · exact (pySorted_sorted leFst_trans leFst_total e₂).imp
        (fun h => (bleOf_lcmp_iff _ _).mp h)
    · intro a ha b hb hk
      exact hinj a (pySorted_mem.mp ha) b (pySorted_mem.mp hb) hk

/-- Witness for `C4_amended`: with distinct natural keys, the two
enumerations of `{("A","d1"), ("B","d2")}` sort to the same insertion
order. -/
theorem C4_amended_witness :
    List.Perm [(chars "A", chars "d1"), (chars "B", chars "d2")]
      [(chars "B", chars "d2"), (chars "A", chars "d1")] ∧
    (∀ a ∈ [(chars "A", chars "d1"), (chars "B", chars "d2")],
      ∀ b ∈ [(chars "A", chars "d1"), (chars "B", chars "d2")], a.1 = b.1 → a = b) ∧
    pgCategoriesOfEnum [(chars "A", chars "d1"), (chars "B", chars "d2")] =
      pgCategoriesOfEnum [(chars "B", chars "d2"), (chars "A", chars "d1")] :=
  ⟨by decide, by decide, C4_amended.2 _ _ (by decide) (by decide)⟩

/-- **C5.**  Referential completeness.  PostgreSQL pipeline: every Country
row's region id, Product row's category id, Customer row's country id, and
OrderDetail row's customer and product ids are 1-based positions of existing
rows of the respective parent table.  SQLite pipeline: the same bounds hold
for the tables of every run that completes (`sqRun f = some t`); child records
whose parent lookup fails are dropped by both pipelines, never inserted with a
placeholder key. -/
theorem C5_referential_completeness :
    (∀ f : List Str,
      (∀ p ∈ pgCountryTable f, ∃ j, p.2 = j + 1 ∧ j < (pgRegionTable f).length) ∧
      (∀ p ∈ pgProductTable f, ∃ j, p.2.2 = j + 1 ∧ j < (pgCategoryTable f).length) ∧
      (∀ c ∈ pgCustomerTable f, ∃ j, c.2.2.2.2 = j + 1 ∧ j < (pgCountryTable f).length) ∧
      (∀ o ∈ pgOrderTable f,
        (∃ j, o.1 = j + 1 ∧ j < (pgCustomerTable f).length) ∧
        (∃ j, o.2.1 = j + 1 ∧ j < (pgProductTable f).length))) ∧
    (∀ (f : List Str) (t : SqTables), sqRun f = some t →
      (∀ p ∈ t.country, ∃ j, p.2 = j + 1 ∧ j < t.region.length) ∧
      (∀ p ∈ t.product, ∃ j, p.2.2 = j + 1 ∧ j < t.productcategory.length) ∧
      (∀ c ∈ t.customer, ∃ j, c.2.2.2.2 = j + 1 ∧ j < t.country.length) ∧
      (∀ o ∈ t.orderdetail,
        (∃ j, o.1 = j + 1 ∧ j < t.customer.length) ∧
        (∃ j, o.2.1 = j + 1 ∧ j < t.product.length))) := by
  constructor
  · intro f
    refine ⟨?_, ?_, ?_, ?_⟩
    · intro p hp
      unfold pgCountryTable at hp
      rw [List.mem_filterMap] at hp
      obtain ⟨q, _, heq⟩ := hp
      rw [Option.map_eq_some'] at heq
      obtain ⟨rid, hrid, heq⟩ := heq
      obtain ⟨j, hj1, hj2, _⟩ := tableMap_some hrid
      refine ⟨j, ?_, hj2⟩
      rw [← heq]
      exact hj1
    · intro p hp
      unfold pgProductTable at hp
      rw [List.mem_filterMap] at hp
      obtain ⟨q, _, heq⟩ := hp
      rw [Option.map_eq_some'] at heq
      obtain ⟨cid, hcid, heq⟩ := heq
      obtain ⟨j, hj1, hj2, _⟩ := tableMap_some hcid
      rw [List.length_map] at hj2
      refine ⟨j, ?_, hj2⟩
      rw [← heq]
      exact hj1
    · intro c hc
      unfold pgCustomerTable at hc
      rw [List.mem_filterMap] at hc
      obtain ⟨q, _, heq⟩ := hc
      rw [Option.map_eq_some'] at heq
      obtain ⟨cid, hcid, heq⟩ := heq
      obtain ⟨j, hj1, hj2, _⟩ := tableMap_some hcid
      rw [List.length_map] at hj2
      refine ⟨j, ?_, hj2⟩
      rw [← heq]
      exact hj1
    · intro o ho
      unfold pgOrderTable pgOrdersWith at ho
      rw [List.mem_flatMap] at ho
      obtain ⟨l, _, hmem⟩ := ho
      split_ifs at hmem with hg
      · rcases hcm : pgCustomerMap f
            (trimStr (joinSpace (splitWs ((pgLineParts l).getD 0 [])))) with _ | cid
        · rw [hcm] at hmem
          simp at hmem
        · rw [hcm] at hmem
          dsimp only at hmem
          rw [List.mem_filterMap] at hmem
          obtain ⟨u, _, heq⟩ := hmem
          rcases hpm : pgProductMap f u.1 with _ | pid
          · rw [hpm] at heq
            simp at heq
          · rw [hpm] at heq
            dsimp only at heq
            rcases hq : parseIntPy u.2.1 with _ | qty
            · rw [hq] at heq
              simp at heq
            · rcases hd : parseDatePy u.2.2 with _ | d
              · rw [hq, hd] at heq
                simp at heq
              · rw [hq, hd] at heq
                dsimp only at heq
                injection heq with heq
                subst heq
                constructor
                · unfold pgCustomerMap at hcm
                  obtain ⟨j, hj1, hj2, _⟩ := tableMap_some hcm
                  rw [List.length_map] at hj2
                  exact ⟨j, hj1, hj2⟩
                · unfold pgProductMap at hpm
                  obtain ⟨j, hj1, hj2, _⟩ := tableMap_some hpm
                  rw [List.length_map] at hj2
                  exact ⟨j, hj1, hj2⟩
      · simp at hmem
  · intro f t hrun
    unfold sqRun at hrun
    rcases hreg : sqRegionRows f with _ | region
    · rw [hreg] at hrun
      simp at hrun
    rw [hreg] at hrun
    simp only [Option.pure_def, Option.bind_eq_bind, Option.some_bind] at hrun
    rcases hcoun : sqCountryRows f region with _ | country
    · rw [hcoun] at hrun
      simp at hrun
    rw [hcoun] at hrun
    simp only [Option.some_bind] at hrun
    rcases hcust : sqCustomerRows f country with _ | customer
    · rw [hcust] at hrun
      simp at hrun
    rw [hcust] at hrun
    simp only [Option.some_bind] at hrun
    rcases hcats : sqCategoryRows f with _ | productcategory
    · rw [hcats] at hrun
      simp at hrun
    rw [hcats] at hrun
    simp only [Option.some_bind] at hrun
    rcases hprod : sqProductRows f productcategory with _ | product
    · rw [hprod] at hrun
      simp at hrun
    rw [hprod] at hrun
    simp only [Option.some_bind] at hrun
    rcases hord : sqOrderRows f customer product with _ | orderdetail
    · rw [hord] at hrun
      simp at hrun
    rw [hord] at hrun
    simp only [Option.some_bind] at hrun
    injection hrun with hrun
    subst hrun
    refine ⟨?_, ?_, ?_, ?_⟩
    · -- Country → Region
      intro p hp
      unfold sqCountryRows at hcoun
      rw [Option.map_eq_some'] at hcoun
      obtain ⟨raw, hraw, hsort⟩ := hcoun
      rw [← hsort] at hp
      have hpraw : p ∈ raw := canonSet_mem.mp (pySorted_mem.mp hp)
      obtain ⟨l, _, zs, hzs, hpz⟩ := gatherLines_mem hraw hpraw
      split_ifs at hzs with hg
      · rcases h4 : (sqParts l)[4]? with _ | r4
        · rw [h4] at hzs
          simp at hzs
        · rw [h4] at hzs
          dsimp only at hzs
          rcases hrm : tableMap region r4 with _ | rid
          · rw [hrm] at hzs
            dsimp only at hzs
            injection hzs with hzs
            subst hzs
            simp at hpz
          · rw [hrm] at hzs
            dsimp only at hzs
            rcases h3 : (sqParts l)[3]? with _ | c
            · rw [h3] at hzs
              simp at hzs
            · rw [h3] at hzs
              dsimp only at hzs
              injection hzs with hzs
              subst hzs
              rw [List.mem_singleton] at hpz
              subst hpz
              obtain ⟨j, hj1, hj2, _⟩ := tableMap_some hrm
              exact ⟨j, hj1, hj2⟩
      · injection hzs with hzs
        subst hzs
        simp at hpz
    · -- Product → ProductCategory
      intro p hp
      unfold sqProductRows at hprod
      rw [Option.map_eq_some'] at hprod
      obtain ⟨raw, hraw, hsort⟩ := hprod
      rw [← hsort] at hp
      have hpraw : p ∈ raw := canonSet_mem.mp (pySorted_mem.mp hp)
      obtain ⟨l, _, zs, hzs, hpz⟩ := gatherLines_mem hraw hpraw
      split_ifs at hzs with hg
      · rcases h5 : (sqParts l)[5]? with _ | f5
        · rw [h5] at hzs
          simp at hzs
        · rcases h6 : (sqParts l)[6]? with _ | f6
          · rw [h5, h6] at hzs
            simp at hzs
          · rcases h8 : (sqParts l)[8]? with _ | f8
            · rw [h5, h6, h8] at hzs
              simp at hzs
            · rw [h5, h6, h8] at hzs
              dsimp only at hzs
              obtain ⟨u, _, ws, hws, hpw⟩ := gatherLines_mem hzs hpz
              rcases hct : tableMap (productcategory.map (·.1)) u.2.1 with _ | cid
              · rw [hct] at hws
                dsimp only at hws
                injection hws with hws
                subst hws
                simp at hpw
              · rw [hct] at hws
                dsimp only at hws
                rcases hfl : parseFloatPy u.2.2 with _ | v
                · rw [hfl] at hws
                  simp at hws
                · rw [hfl] at hws
                  dsimp only at hws
                  injection hws with hws
                  subst hws
                  rw [List.mem_singleton] at hpw
                  subst hpw
                  obtain ⟨j, hj1, hj2, _⟩ := tableMap_some hct
                  rw [List.length_map] at hj2
                  exact ⟨j, hj1, hj2⟩
      · injection hzs with hzs
        subst hzs
        simp at hpz
    · -- Customer → Country
      intro c hc
      unfold sqCustomerRows at hcust
      rw [Option.map_eq_some'] at hcust
      obtain ⟨raw, hraw, hsort⟩ := hcust
      rw [← hsort] at hc
      have hcraw : c ∈ raw := canonSet_mem.mp (pySorted_mem.mp hc)
      obtain ⟨l, _, zs, hzs, hcz⟩ := gatherLines_mem hraw hcraw
      split_ifs at hzs with hg
      · rcases hsw : splitWs ((sqParts l).getD 0 []) with _ | ⟨n0, rest⟩
        · rw [hsw] at hzs
          simp at hzs
        · rw [hsw] at hzs
          dsimp only at hzs
          injection hzs with hzs
          subst hzs
          rw [List.mem_singleton] at hcz
          obtain ⟨cid, hcid⟩ := Option.isSome_iff_exists.mp hg.2
          subst hcz
          obtain ⟨j, hj1, hj2, _⟩ := tableMap_some hcid
          rw [List.length_map] at hj2
          refine ⟨j, ?_, hj2⟩
          rw [hcid]
          simpa using hj1
      · injection hzs with hzs
        subst hzs
        simp at hcz
    · -- OrderDetail → Customer, Product
      intro o ho
      unfold sqOrderRows at hord
      obtain ⟨l, _, zs, hzs, hoz⟩ := gatherLines_mem hord ho
      split_ifs at hzs with hg
      · rcases hcm : tableMap (customer.map fun r => r.1 ++ ' ' :: r.2.1)
            (joinSpace (splitWs ((sqParts l).getD 0 []))) with _ | cid
        · rw [hcm] at hzs
          dsimp only at hzs
          injection hzs with hzs
          subst hzs
          simp at hoz
        · rw [hcm] at hzs
          dsimp only at hzs
          obtain ⟨u, _, ws, hws, how⟩ := gatherLines_mem hzs hoz
          rcases hpm : tableMap (product.map (·.1)) u.1 with _ | pid
          · rw [hpm] at hws
            dsimp only at hws
            injection hws with hws
            subst hws
            simp at how
          · rw [hpm] at hws
            dsimp only at hws
            rcases hd : parseDatePy (trimStr u.2.2) with _ | d
            · rw [hd] at hws
              simp at hws
            · rcases hq : parseIntPy u.2.1 with _ | q
              · rw [hd, hq] at hws
                simp at hws
              · rw [hd, hq] at hws
                dsimp only at hws
                injection hws with hws
                subst hws
                rw [List.mem_singleton] at how
                subst how
                constructor
                · obtain ⟨j, hj1, hj2, _⟩ := tableMap_some hcm
                  rw [List.length_map] at hj2
                  exact ⟨j, hj1, hj2⟩
                · obtain ⟨j, hj1, hj2, _⟩ := tableMap_some hpm
                  rw [List.length_map] at hj2
                  exact ⟨j, hj1, hj2⟩
      · injection hzs with hzs
        subst hzs
        simp at hoz

/-- Witness for `C5_referential_completeness`: the `France` row of `fileC3`'s
Country table references an existing Region row. -/
theorem C5_referential_completeness_witness :
    (chars "France", 1) ∈ pgCountryTable fileC3 ∧
    (∃ j, ((chars "France", 1) : Str × Nat).2 = j + 1 ∧ j < (pgRegionTable fileC3).length) :=
  ⟨by decide, (C5_referential_completeness.1 fileC3).1 (chars "France", 1) (by decide)⟩

theorem splitOnPred_length (p : Char → Bool) (s : Str) :
    (splitOnPred p s).length = s.countP p + 1 := by
  induction s with
  | nil => simp [splitOnPred]
  | cons c rest ih =>
    unfold splitOnPred
    by_cases h : p c
    · rw [if_pos h]
      simp only [List.length_cons, ih, List.countP_cons, h, if_true]
    · rw [if_neg h]
      cases hrec : splitOnPred p rest with
      | nil => exact absurd hrec splitOnPred_ne_nil
      | cons s0 ss =>
        have : (splitOnPred p rest).length = ss.length + 1 := by rw [hrec]; rfl
        simp only [List.length_cons, List.countP_cons, h, if_false]
        rw [hrec] at ih
        simp only [List.length_cons] at ih
        simpa using ih

theorem splitTab_rstripNl_length (l : Str) :
    (splitTab (rstripNl l)).length = (splitTab l).length := by
  unfold splitTab rstripNl
  rw [splitOnPred_length, splitOnPred_length]
  congr 1
  rw [List.countP_reverse]
  conv_rhs => rw [← List.countP_reverse]
  conv_rhs =>
    rw [← List.takeWhile_append_dropWhile (p := fun c => decide (c = '\n')) (l := l.reverse)]
  rw [List.countP_append]
  have hz : List.countP (fun c => decide (c = '\t'))
      (List.takeWhile (fun c => decide (c = '\n')) l.reverse) = 0 := by
    rw [List.countP_eq_zero]
    intro a ha
    have := List.mem_takeWhile_imp ha
    simp only [decide_eq_true_eq] at this
    subst this
    decide
  omega

/-- **C10, amended.**  The two pipelines do differ in general — already on the
Region table (`C10_counterexample`): SQLite persists untrimmed and empty
region names that PostgreSQL trims or drops, and whitespace-only trailing
fields crash SQLite (`C9_counterexample`).  On input files where every data
line is *clean* (`cleanLine`: stripping the line only removes the trailing
newline, and every tab-field is already trimmed and nonempty), the SQLite
Region step succeeds and produces exactly the PostgreSQL Region table. -/
theorem C10_amended : ∀ f : List Str, (∀ l ∈ dataLines f, cleanLine l) →
    sqRegionRows f = some (pgRegionTable f) := by
  intro f h
  have key : ∀ ls : List Str, (∀ l ∈ ls, cleanLine l) →
      gatherLines (fun l =>
        if 4 < (splitTab l).length then
          match (sqParts l)[4]? with
          | some x => some [x]
          | none => none
        else some []) ls =
      some (ls.filterMap (fun l =>
        if 4 < (pgLineParts l).length ∧ trimStr ((pgLineParts l).getD 4 []) ≠ [] then
          some (trimStr ((pgLineParts l).getD 4 []))
        else none)) := by
    intro ls hls
    induction ls with
    | nil => rfl
    | cons l rest ih =>
      have hcl : cleanLine l := hls l (List.mem_cons_self l rest)
      have hrest := ih (fun x hx => hls x (List.mem_cons_of_mem _ hx))
      obtain ⟨hsplit, hfields⟩ := hcl
      have hparts : sqParts l = pgLineParts l := hsplit
      have hlenr : (pgLineParts l).length = (splitTab l).length := splitTab_rstripNl_length l
      unfold gatherLines
      rw [hrest, List.filterMap_cons]
      by_cases hg : 4 < (splitTab l).length
      · have hg' : 4 < (pgLineParts l).length := by
          rw [hlenr]
          exact hg
        have hsq4 : 4 < (sqParts l).length := by
          rw [hparts]
          exact hg'
        obtain ⟨x, hx⟩ : ∃ x, (sqParts l)[4]? = some x :=
          ⟨_, List.getElem?_eq_getElem hsq4⟩
        have hxmem : x ∈ pgLineParts l := by
          rw [← hparts]
          obtain ⟨hlt, hEl⟩ := List.getElem?_eq_some_iff.mp hx
          exact hEl ▸ List.getElem_mem hlt
        have hxprops := hfields _ hxmem
        have hgd : (pgLineParts l).getD 4 [] = x := by
          rw [List.getD_eq_getElem?_getD, ← hparts, hx]
          rfl
        rw [if_pos hg, hx]
        dsimp only
        rw [hgd, hxprops.1, if_pos (And.intro hg' hxprops.2)]
        rfl
      · have hg' : ¬ 4 < (pgLineParts l).length := by
          rw [hlenr]
          exact hg
        rw [if_neg hg]
        dsimp only
        rw [if_neg (fun hc => hg' hc.1)]
        rfl
  unfold sqRegionRows pgRegionTable pgRegionRaw
  rw [key (dataLines f) h]
  rfl

/-- Witness for `C10_amended` at the clean file `fileC10w`. -/
theorem C10_amended_witness :
    (∀ l ∈ dataLines fileC10w, cleanLine l) ∧
    sqRegionRows fileC10w = some (pgRegionTable fileC10w) :=
  ⟨by decide, C10_amended fileC10w (by decide)⟩
